import Mathlib

/-!
Shallow embedding of the peephole-mutator core of the wasm-tools repository:
the basic-block delimiter, the DFG builder performing symbolic stack
evaluation (crates/wasm-mutate/src/mutators/peephole/dfg/mod.rs), and the
random cost-guided extractor
(crates/wasm-mutate/src/mutators/peephole/eggsy/mod.rs).
Rust machine integers are modelled as Nat/Int, Vec as List, HashMap as an
association list, and Rust panics as an explicit error channel.
-/

namespace Wasm

/-- Modelled from the spec: PrimitiveTypeInfo lives in the module metadata
resolver (module.rs, not present in the sources); the DFG core only needs
the I32, I64 and Empty cases. -/
inductive PrimitiveTypeInfo where
  | I32
  | I64
  | Empty
  deriving DecidableEq, Repr, Inhabited

/-- Modelled from the spec: the function-type payload of TypeInfo::Func,
a parameter list and a return list of value types (module.rs missing). -/
structure FunType where
  params : List PrimitiveTypeInfo
  returns : List PrimitiveTypeInfo
  deriving DecidableEq, Repr, Inhabited

/-- Modelled from the spec: ModuleInfo resolves a function index to its
type and a global index to its value type (module.rs missing).
get_functype_idx is modelled as positional lookup in funcTypes. -/
structure ModuleInfo where
  funcTypes : List FunType
  global_types : List PrimitiveTypeInfo
  deriving DecidableEq, Repr, Inhabited

/-- The i64-result binary arithmetic group matched as one arm in get_dfg. -/
inductive I64BinOp where
  | Add | Sub | Mul | DivS | DivU | Shl | ShrS | Xor | Or | And
  | Rotl | Rotr | ShrU | RemS | RemU
  deriving DecidableEq, Repr, Inhabited

/-- The i32-result binary group (i32 arithmetic, i32 and i64 comparisons)
matched as one arm in get_dfg. -/
inductive I32BinOp where
  | I32Add | I32Sub | I32Eq | I32Ne | I32LtS | I32LtU | I32GtS | I32GtU
  | I32LeS | I32LeU | I32GeS | I32GeU | I32Mul | I32DivS | I32DivU
  | I32Shl | I32ShrS | I32Xor | I32Or
  | I64Eq | I64Ne | I64LtS | I64LtU | I64GtS | I64GtU | I64LeS | I64LeU
  | I64GeS | I64GeU
  | I32And | I32ShrU | I32Rotl | I32Rotr | I32RemS | I32RemU
  deriving DecidableEq, Repr, Inhabited

/-- Memory argument of a load (offset, align, memory index). -/
structure MemArg where
  offset : Nat
  align : Nat
  memory : Nat
  deriving DecidableEq, Repr, Inhabited

/-- The wasmparser operators distinguished by the DFG core. Operators the
source does not match explicitly fall into the catch-all Other. -/
inductive Operator where
  | If | Else | End | Block | Loop | Br | BrIf | Return | Unreachable | BrTable
  | Call (function_index : Nat)
  | LocalGet (local_index : Nat)
  | GlobalGet (global_index : Nat)
  | GlobalSet (global_index : Nat)
  | I32Const (value : Int)
  | I64Const (value : Int)
  | LocalSet (local_index : Nat)
  | LocalTee (local_index : Nat)
  | I32Store | I64Store
  | I32Load (memarg : MemArg)
  | I64Load (memarg : MemArg)
  | I32Eqz | I64Eqz
  | I64Bin (op : I64BinOp)
  | I32Bin (op : I32BinOp)
  | Drop
  | I32WrapI64
  | Nop
  | Other
  deriving DecidableEq, Repr, Inhabited

/-- StackType from dfg/mod.rs: the operator identity retained for
data-flow purposes. -/
inductive StackType where
  | I32 (v : Int)
  | I64 (v : Int)
  | LocalGet (i : Nat)
  | LocalSet (i : Nat)
  | LocalTee (i : Nat)
  | GlobalGet (i : Nat)
  | GlobalSet (i : Nat)
  | Drop
  | Call (function_index : Nat) (params_count : Nat)
  | Load (offset : Nat) (align : Nat) (memory : Nat)
  | Undef
  | IndexAtCode (i : Nat) (arity : Nat)
  deriving DecidableEq, Repr, Inhabited

/-- StackEntry from dfg/mod.rs: one DFG node. -/
structure StackEntry where
  operator : StackType
  operands : List Nat
  return_type : PrimitiveTypeInfo
  entry_idx : Nat
  color : Nat
  operator_idx : Nat
  deriving DecidableEq, Repr, Inhabited

/-- MiniDFG from dfg/mod.rs. The HashMap map is an association list
(latest insertion first); parents uses the sentinel -1. -/
structure MiniDFG where
  map : List (Nat × Nat)
  entries : List StackEntry
  parents : List Int
  deriving DecidableEq, Repr, Inhabited

/-- wasmparser Range: a half open index range. -/
structure Range where
  start : Nat
  end_ : Nat
  deriving DecidableEq, Repr, Inhabited

/-- BBlock from dfg/mod.rs. -/
structure BBlock where
  range : Range
  deriving DecidableEq, Repr, Inhabited

/-! ## MiniDFG.is_subtree_consistent (dfg/mod.rs lines 79-111) -/

/-- Largest operand-list length over the entries, used to size the fuel of
the worklist loop below. -/
def maxArity (entries : List StackEntry) : Nat :=
  entries.foldl (fun a e => max a e.operands.length) 0

/-- The worklist loop of is_subtree_consistent: pop an entry index, record
its color, push its operands. The Rust loop runs until the worklist is
empty; the fuel argument only bounds the iteration count and is chosen
large enough in is_subtree_consistent that it never runs out on a forest
shaped MiniDFG. The Rust code pushes the operands in order onto a vector
used as a stack; with the list head as the stack top that is an in-order
prepend of the reversed operand list. -/
def collectColors (entries : List StackEntry) :
    Nat → List Nat → List Nat → List Nat
  | 0, _, colors => colors
  | _ + 1, [], colors => colors
  | fuel + 1, i :: rest, colors =>
    let entry := entries.getD i default
    collectColors entries fuel (entry.operands.reverse ++ rest)
      (colors ++ [entry.color])

/-- The final check of is_subtree_consistent on the collected color list:
colors.get(0) mapped over all-equal, defaulting to false when empty. -/
def colorsConsistent : List Nat → Bool
  | [] => false
  | c :: cs => (c :: cs).all (fun x => x = c)

/-- MiniDFG::is_subtree_consistent. The traversal visits, starting from
the entry at index current, every entry reachable through operands links,
collecting colors, and then demands that all collected colors agree with
the first one. -/
def MiniDFG.is_subtree_consistent (dfg : MiniDFG) (current : Nat) : Bool :=
  let fuel := (maxArity dfg.entries + 1) ^ dfg.entries.length
  colorsConsistent (collectColors dfg.entries fuel [current] [])

/-- MiniDFG::is_subtree_consistent_from_root. -/
def MiniDFG.is_subtree_consistent_from_root (dfg : MiniDFG) : Bool :=
  dfg.is_subtree_consistent (dfg.entries.length - 1)

/-! ## DFGIcator.get_bb_from_operator (dfg/mod.rs lines 127-176) -/

/-- The ten control-flow boundary operator kinds matched by the first arm
of the loop in get_bb_from_operator. -/
def isBoundary : Operator → Bool
  | .If | .Else | .End | .Block | .Loop | .Br | .BrIf | .Return
  | .Unreachable | .BrTable => true
  | _ => false

/-- The backward scan loop of get_bb_from_operator: returns the final
range.start, or none for the early return when the probe itself is a
boundary. On a boundary: return none if nothing non-boundary was found
yet, else break keeping the current start; otherwise set found, decrement
start while positive, and break at zero. -/
def bbStart (operators : List Operator) : Nat → Bool → Option Nat
  | 0, found =>
    if isBoundary (operators.getD 0 .Other) then
      if !found then none else some 0
    else some 0
  | start + 1, found =>
    if isBoundary (operators.getD (start + 1) .Other) then
      if !found then none else some (start + 1)
    else bbStart operators start true

/-- DFGIcator::get_bb_from_operator. The range end is operator_index + 1;
the start comes from the backward scan; the degenerate zero-width check
mirrors the final if of the source. -/
def get_bb_from_operator (operator_index : Nat) (operators : List Operator) :
    Option BBlock :=
  match bbStart operators operator_index false with
  | none => none
  | some start =>
    let range : Range := ⟨start, operator_index + 1⟩
    if range.end_ - range.start > 0 then some ⟨range⟩ else none

/-! ## DFGIcator.get_dfg (dfg/mod.rs lines 178-802) -/

/-- Abnormal exits of the builder loop: unsupported is the Rust
return None; indexOOB models a Rust panic on out-of-bounds indexing
(locals, global_types or the function-type table); assertNe models a
failure of the assert_ne in the binary-operator arms. -/
inductive DfgFail where
  | unsupported
  | indexOOB
  | assertNe
  deriving DecidableEq, Repr, Inhabited

/-- The two panic exits of get_dfg, kept separate from the Option result
that models the Rust return value. -/
inductive DfgPanic where
  | indexOOB
  | assertNe
  deriving DecidableEq, Repr, Inhabited

/-- The mutable locals of the get_dfg loop: dfg_map, operatormap, the
symbolic value stack (list head is the stack top), parents and the
running color counter. -/
structure DfgState where
  dfg_map : List StackEntry
  operatormap : List (Nat × Nat)
  stack : List Nat
  parents : List Int
  color : Nat
  deriving DecidableEq, Repr, Inhabited

/-- The if-let inside push_node: empty values are not pushed onto the
symbolic stack. -/
def pushToStack : PrimitiveTypeInfo → Bool
  | .Empty => false
  | _ => true

/-- DFGIcator::push_node: append a new entry with the current color,
record it in operatormap, push its index on the symbolic stack unless the
return type is Empty, and append a -1 parent slot. Returns entry_idx. -/
def push_node (operator : StackType) (operator_idx : Nat)
    (operands : List Nat) (return_type : PrimitiveTypeInfo)
    (st : DfgState) : Nat × DfgState :=
  let entry_idx := st.dfg_map.length
  let push_to_stack := pushToStack return_type
  let newnode : StackEntry :=
    ⟨operator, operands, return_type, entry_idx, st.color, operator_idx⟩
  (entry_idx,
    { st with
      operatormap := (operator_idx, entry_idx) :: st.operatormap
      stack := if push_to_stack then entry_idx :: st.stack else st.stack
      dfg_map := st.dfg_map ++ [newnode]
      parents := st.parents ++ [(-1 : Int)] })

/-- DFGIcator::pop_operand: pop the top of the symbolic stack; on an empty
stack synthesize a fresh Undef leaf of color 0 (not pushed back on the
stack) and use its index. -/
def pop_operand (operator_idx : Nat) (insertindfg : Bool)
    (st : DfgState) : Nat × DfgState :=
  match st.stack with
  | i :: rest => (i, { st with stack := rest })
  | [] =>
    let entry_idx := st.dfg_map.length
    let leaf : StackEntry := ⟨.Undef, [], .Empty, entry_idx, 0, operator_idx⟩
    (entry_idx,
      { st with
        operatormap :=
          if insertindfg then (operator_idx, entry_idx) :: st.operatormap
          else st.operatormap
        dfg_map := st.dfg_map ++ [leaf]
        parents := st.parents ++ [(-1 : Int)] })

/-- parents[child] = v. -/
def setParent (st : DfgState) (child : Nat) (v : Int) : DfgState :=
  { st with parents := st.parents.set child v }

/-- The Call arm pops one operand per parameter, in pop order. -/
def popOperands (operator_idx : Nat) : Nat → DfgState → List Nat × DfgState
  | 0, st => ([], st)
  | n + 1, st =>
    let (i, st1) := pop_operand operator_idx true st
    let (rest, st2) := popOperands operator_idx n st1
    (i :: rest, st2)

/-- One iteration of the get_dfg loop: the match over the operator at
absolute index idx, mirroring the arms of the source arm for arm. -/
def dfgStep (info : ModuleInfo) (locals : List PrimitiveTypeInfo)
    (idx : Nat) (operator : Operator) (st : DfgState) :
    Except DfgFail DfgState :=
  match operator with
  | .Call function_index =>
    match info.funcTypes.get? function_index with
    | none => .error .indexOOB
    | some tpe =>
      if tpe.returns.length > 1 then .error .unsupported
      else
        let (popped, st1) := popOperands idx tpe.params.length st
        let operands := popped.reverse
        let (fidx, st2) := push_node
          (.Call function_index tpe.params.length) idx operands
          (if tpe.returns.length = 0 then .Empty else tpe.returns.getD 0 default)
          st1
        let st3 := operands.foldl (fun s i => setParent s i (fidx : Int)) st2
        .ok { st3 with color := st3.color + 1 }
  | .LocalGet local_index =>
    match locals.get? local_index with
    | none => .error .indexOOB
    | some t => .ok (push_node (.LocalGet local_index) idx [] t st).2
  | .GlobalGet global_index =>
    match info.global_types.get? global_index with
    | none => .error .indexOOB
    | some t => .ok (push_node (.GlobalGet global_index) idx [] t st).2
  | .GlobalSet global_index =>
    let (child, st1) := pop_operand idx true st
    let st2 := (push_node (.GlobalSet global_index) idx [child] .Empty st1).2
    -- The source discards the entry index returned by push_node here and
    -- writes the loop variable idx, the operator index, into parents.
    let st3 := setParent st2 child (idx : Int)
    .ok { st3 with color := st3.color + 1 }
  | .I32Const value => .ok (push_node (.I32 value) idx [] .I32 st).2
  | .I64Const value => .ok (push_node (.I64 value) idx [] .I64 st).2
  | .LocalSet local_index =>
    let (child, st1) := pop_operand idx true st
    let (idx2, st2) := push_node (.LocalSet local_index) idx [child] .Empty st1
    let st3 := setParent st2 child (idx2 : Int)
    .ok { st3 with color := st3.color + 1 }
  | .LocalTee local_index =>
    let (child, st1) := pop_operand idx true st
    match locals.get? local_index with
    | none => .error .indexOOB
    | some t =>
      let (idx2, st2) := push_node (.LocalTee local_index) idx [child] t st1
      let st3 := setParent st2 child (idx2 : Int)
      .ok { st3 with color := st3.color + 1 }
  | .I32Store | .I64Store =>
    let (offset, st1) := pop_operand idx false st
    let (idx2, st2) := push_node (.IndexAtCode idx 1) idx [offset] .Empty st1
    let st3 := setParent st2 offset (idx2 : Int)
    .ok { st3 with color := st3.color + 1 }
  | .I32Load memarg =>
    let (offset, st1) := pop_operand idx false st
    let (idx2, st2) := push_node
      (.Load memarg.offset memarg.align memarg.memory) idx [offset] .I32 st1
    .ok (setParent st2 offset (idx2 : Int))
  | .I64Load memarg =>
    let (offset, st1) := pop_operand idx false st
    let (idx2, st2) := push_node
      (.Load memarg.offset memarg.align memarg.memory) idx [offset] .I64 st1
    .ok (setParent st2 offset (idx2 : Int))
  | .I32Eqz =>
    let (operand, st1) := pop_operand idx false st
    let (idx2, st2) := push_node (.IndexAtCode idx 1) idx [operand] .I32 st1
    .ok (setParent st2 operand (idx2 : Int))
  | .I64Eqz =>
    let (operand, st1) := pop_operand idx false st
    let (idx2, st2) := push_node (.IndexAtCode idx 1) idx [operand] .I32 st1
    .ok (setParent st2 operand (idx2 : Int))
  | .I64Bin _ =>
    let (leftidx, st1) := pop_operand idx false st
    let (rightidx, st2) := pop_operand idx false st1
    if leftidx = rightidx then .error .assertNe
    else
      let (idx2, st3) := push_node (.IndexAtCode idx 2) idx
        [rightidx, leftidx] .I64 st2
      .ok (setParent (setParent st3 leftidx (idx2 : Int)) rightidx (idx2 : Int))
  | .I32Bin _ =>
    let (leftidx, st1) := pop_operand idx false st
    let (rightidx, st2) := pop_operand idx false st1
    if leftidx = rightidx then .error .assertNe
    else
      let (idx2, st3) := push_node (.IndexAtCode idx 2) idx
        [rightidx, leftidx] .I32 st2
      .ok (setParent (setParent st3 leftidx (idx2 : Int)) rightidx (idx2 : Int))
  | .Drop =>
    let (arg, st1) := pop_operand idx false st
    let (idx2, st2) := push_node .Drop idx [arg] .Empty st1
    .ok (setParent st2 arg (idx2 : Int))
  | .I32WrapI64 =>
    let (arg, st1) := pop_operand idx false st
    let (idx2, st2) := push_node (.IndexAtCode idx 1) idx [arg] .I32 st1
    .ok (setParent st2 arg (idx2 : Int))
  | .Else | .End | .Nop | .Br | .BrTable | .BrIf | .Return | .Unreachable =>
    let entry_idx := st.dfg_map.length
    let newnode : StackEntry :=
      ⟨.IndexAtCode idx 0, [], .Empty, entry_idx, st.color, idx⟩
    .ok { st with
      dfg_map := st.dfg_map ++ [newnode]
      parents := st.parents ++ [(-1 : Int)] }
  | _ => .error .unsupported

/-- The for loop of get_dfg over the instruction indices of the block:
idx is the absolute operator index, n the count still to process. -/
def getDfgLoop (info : ModuleInfo) (operators : List Operator)
    (locals : List PrimitiveTypeInfo) :
    Nat → Nat → DfgState → Except DfgFail DfgState
  | _, 0, st => .ok st
  | idx, n + 1, st =>
    match operators.get? idx with
    | none => .error .indexOOB
    | some op =>
      match dfgStep info locals idx op st with
      | .error e => .error e
      | .ok st1 => getDfgLoop info operators locals (idx + 1) n st1

/-- DFGIcator::get_dfg: run the loop over the basic-block range starting
from the empty state with color 1; ok none models the Rust return None
for unsupported content, the error channel models a panic. -/
def get_dfg (info : ModuleInfo) (operators : List Operator)
    (basicblock : BBlock) (locals : List PrimitiveTypeInfo) :
    Except DfgPanic (Option MiniDFG) :=
  let init : DfgState := ⟨[], [], [], [], 1⟩
  match getDfgLoop info operators locals basicblock.range.start
      (basicblock.range.end_ - basicblock.range.start) init with
  | .ok st => .ok (some ⟨st.operatormap, st.dfg_map, st.parents⟩)
  | .error .unsupported => .ok none
  | .error .indexOOB => .error .indexOOB
  | .error .assertNe => .error .assertNe

/-- True when following parent links from entry i reaches an entry whose
parent slot holds the sentinel -1 within fuel link-follows. -/
def parentChainEnds (parents : List Int) : Nat → Nat → Bool
  | 0, i => parents.getD i (-1) = -1
  | fuel + 1, i =>
    if parents.getD i (-1) = -1 then true
    else parentChainEnds parents fuel (parents.getD i (-1)).toNat

/-! ## RandomExtractor (eggsy/mod.rs lines 24-189) -/

/-- Modelled from the spec: an egg e-graph member node, a labelled term
node with an ordered list of child equivalence-class ids (the egg crate
is an external collaborator; the extractor only reads label and
children). -/
structure ENode where
  sym : Nat
  children : List Nat
  deriving DecidableEq, Repr, Inhabited

/-- Modelled from the spec: the e-graph as a mapping from equivalence
class id to its member nodes; ids are taken canonical (find is the
identity on this already-canonicalized view). -/
abbrev EGraphM := List (List ENode)

/-- Modelled from the spec: SmallRng is an external deterministic seeded
random source; its state advance is modelled as a 64-bit linear
congruential step. -/
def rngNext (s : Nat) : Nat :=
  (6364136223846793005 * s + 1442695040888963407) % 2 ^ 64

/-- Modelled from the spec: gen_range(0, n) draws a value below n and
advances the generator state. -/
def genRange (s : Nat) (n : Nat) : Nat × Nat :=
  ((s / 2 ^ 33) % n, rngNext s)

/-- Modelled from the spec: the cost function the callers supply is egg
AstSize; a node cost is defined once all child classes have a cost and is
then 1 plus the sum of the child class costs (node_total_cost). -/
def nodeTotalCost (costs : List (Option (Nat × Nat))) (n : ENode) :
    Option Nat :=
  if n.children.all (fun cid => (costs.getD cid none).isSome) then
    some (1 + (n.children.map
      (fun cid => ((costs.getD cid none).getD (0, 0)).1)).sum)
  else none

/-- The cmp helper of eggsy/mod.rs restricted to what min_by consumes:
true when a is strictly greater than b in the None-is-high order. -/
def cmpGt : Option Nat → Option Nat → Bool
  | none, none => false
  | none, some _ => true
  | some _, none => false
  | some a, some b => b < a

/-- Iterator::min_by over a nonempty list: keep the accumulator unless it
compares strictly greater, so the first minimal element wins. -/
def minCostFold : List (Option Nat × Nat) → Option (Option Nat × Nat)
  | [] => none
  | x :: xs => some (xs.foldl (fun a y => if cmpGt a.1 y.1 then y else a) x)

/-- RandomExtractor::make_pass: the minimum of node_total_cost over the
enumerated members of one class; the outer none is the empty class on
which the source panics. -/
def make_pass (costs : List (Option (Nat × Nat))) (eclass : List ENode) :
    Option (Option (Nat × Nat)) :=
  match minCostFold (eclass.enum.map
      (fun p => (nodeTotalCost costs p.2, p.1))) with
  | none => none
  | some (cost, i) => some (cost.map (fun c => (c, i)))

/-- The for loop inside find_costs over all classes in id order, updating
the cost map when a class gains a first cost or improves, and tracking
did_something. -/
def findCostsPass :
    List (Nat × List ENode) → List (Option (Nat × Nat)) → Bool →
    Option (List (Option (Nat × Nat)) × Bool)
  | [], costs, did => some (costs, did)
  | (cid, cls) :: rest, costs, did =>
    match make_pass costs cls with
    | none => none
    | some pass =>
      match costs.getD cid none, pass with
      | none, some new => findCostsPass rest (costs.set cid (some new)) true
      | some old, some new =>
        if new.1 < old.1 then findCostsPass rest (costs.set cid (some new)) true
        else findCostsPass rest costs did
      | _, _ => findCostsPass rest costs did

/-- RandomExtractor::find_costs: iterate passes until none improves. The
fuel bounds the number of while iterations; none means the fuel ran out
or a pass hit an empty class. -/
def find_costs (egraph : EGraphM) :
    Nat → List (Option (Nat × Nat)) → Option (List (Option (Nat × Nat)))
  | 0, _ => none
  | fuel + 1, costs =>
    match findCostsPass egraph.enum costs false with
    | none => none
    | some (costs1, true) => find_costs egraph fuel costs1
    | some (costs1, false) => some costs1

/-- One worklist item of extract_random: parent node id, parent position
in id_to_node, the child equivalence class, and the sampling depth. -/
structure WItem where
  parent : Nat
  parentidx : Nat
  node : Nat
  depth : Nat
  deriving DecidableEq, Repr, Inhabited

/-- The while-let loop of extract_random. The list head is the worklist
top; the source extends the vector with the reversed children so the pop
order is child order, which with a head-top list is an in-order prepend.
none models either fuel exhaustion or a source panic (gen_range on an
empty class, or a cost lookup miss). -/
def extractLoop (egraph : EGraphM) (costs : List (Option (Nat × Nat)))
    (max_depth : Nat) :
    Nat → Nat → List WItem → List ENode → List (List Nat) →
    Option (List ENode × List (List Nat))
  | 0, _, _ :: _, _, _ => none
  | _, _, [], id_to_node, operands => some (id_to_node, operands)
  | fuel + 1, rng, it :: rest, id_to_node, operands =>
    let nodes := egraph.getD it.node []
    let choice : Option (Nat × Nat) :=
      if it.depth ≥ max_depth then
        (costs.getD it.node none).map (fun c => (c.2, rng))
      else if nodes.length = 0 then none
      else some (genRange rng nodes.length)
    match choice with
    | none => none
    | some (node_idx, rng1) =>
      match nodes.get? node_idx with
      | none => none
      | some chosen =>
        let operand := id_to_node.length
        let operandidx := id_to_node.length
        let last_node_id := it.parentidx
        let id_to_node1 := id_to_node ++ [chosen]
        let operands1 := operands ++ [[]]
        let operands2 := operands1.set last_node_id
          ((operands1.getD last_node_id []) ++ [operand])
        let newItems := chosen.children.map
          (fun cid => WItem.mk operand operandidx cid (it.depth + 1))
        extractLoop egraph costs max_depth fuel rng1 (newItems ++ rest)
          id_to_node1 operands2

/-- RandomExtractor::extract_random: choose a random member of the root
class, seed the worklist with its children at depth 0, and run the loop.
The output is the flat id_to_node list with its per-node operand index
lists; the encoder argument of the source is the external tree builder
applied to exactly this data with root id 0 and is not modelled. -/
def extract_random (egraph : EGraphM) (costs : List (Option (Nat × Nat)))
    (rnd : Nat) (eclass : Nat) (max_depth : Nat) (fuel : Nat) :
    Option (List ENode × List (List Nat)) :=
  let nodes := egraph.getD eclass []
  if nodes.length = 0 then none
  else
    let (rootidx, rnd1) := genRange rnd nodes.length
    match nodes.get? rootidx with
    | none => none
    | some rootnode =>
      extractLoop egraph costs max_depth fuel rnd1
        (rootnode.children.map (fun cid => WItem.mk eclass 0 cid 0))
        [rootnode] [[]]

/-- RandomExtractor::new followed by extract_random: compute the cost
fixpoint from the empty map, then sample. -/
def extractorSample (egraph : EGraphM) (seed : Nat) (eclass : Nat)
    (max_depth : Nat) (fuelC : Nat) (fuelE : Nat) :
    Option (List ENode × List (List Nat)) :=
  match find_costs egraph fuelC (List.replicate egraph.length none) with
  | none => none
  | some costs => extract_random egraph costs seed eclass max_depth fuelE

/-! ## Theorems for C1, C10 and C6 -/

/-- C1: the claim says that following parents links from any entry of a
built MiniDFG terminates at the sentinel -1 within entries.len() steps
with no cycle. The code violates it: the GlobalSet arm of get_dfg
discards the entry index returned by push_node and stores the operator
index instead, so the block [nop, global.set 0] (which
get_bb_from_operator itself produces for probe index 1) yields
parents = [-1, 1, -1]: entry 1, the synthesized Undef operand, is its own
parent, and the parent chain from entry 1 never reaches -1. -/
theorem get_dfg_globalset_breaks_forest :
    get_dfg ⟨[], []⟩ [.Nop, .GlobalSet 0] ⟨⟨0, 2⟩⟩ [] =
      .ok (some ⟨[(1, 2), (1, 1)],
        [⟨.IndexAtCode 0 0, [], .Empty, 0, 1, 0⟩,
         ⟨.Undef, [], .Empty, 1, 0, 1⟩,
         ⟨.GlobalSet 0, [1], .Empty, 2, 1, 1⟩],
        [-1, 1, -1]⟩) ∧
    get_bb_from_operator 1 [.Nop, .GlobalSet 0] = some ⟨⟨0, 2⟩⟩ ∧
    parentChainEnds [-1, 1, -1] 3 1 = false := by
  refine ⟨rfl, rfl, rfl⟩

/-- C10: get_dfg panics (models an out-of-bounds indexing panic, not a
None return) on a block containing local.get k with k not below the
length of the locals table, while the same block with an adequate locals
table succeeds; in-bounds local and global indices are part of the
non-panic contract. -/
theorem get_dfg_local_oob_panics :
    get_dfg ⟨[], []⟩ [.LocalGet 0] ⟨⟨0, 1⟩⟩ [] = .error .indexOOB ∧
    get_dfg ⟨[], []⟩ [.LocalGet 0] ⟨⟨0, 1⟩⟩ [.I32] =
      .ok (some ⟨[(0, 0)], [⟨.LocalGet 0, [], .I32, 0, 1, 0⟩], [-1]⟩) ∧
    get_dfg ⟨[], []⟩ [.GlobalGet 0] ⟨⟨0, 1⟩⟩ [] = .error .indexOOB ∧
    get_dfg ⟨[], []⟩ [.LocalTee 0] ⟨⟨0, 1⟩⟩ [] = .error .indexOOB := by
  refine ⟨rfl, rfl, rfl, rfl⟩

/-- The backward scan never yields none once a non-boundary operator has
been seen. -/
theorem bbStart_found_isSome (operators : List Operator) :
    ∀ s, bbStart operators s true ≠ none := by
  intro s
  induction s with
  | zero =>
    by_cases hb : isBoundary (operators[0]?.getD .Other) = true <;>
      simp [bbStart, hb]
  | succ s ih =>
    by_cases hb : isBoundary (operators[s + 1]?.getD .Other) = true <;>
      simp [bbStart, hb, ih]

/-- The backward scan result never exceeds its starting index. -/
theorem bbStart_le (operators : List Operator) :
    ∀ s b r, bbStart operators s b = some r → r ≤ s := by
  intro s
  induction s with
  | zero =>
    intro b r h
    by_cases hb : isBoundary (operators[0]?.getD .Other) = true <;>
      rcases b with _ | _ <;> simp [bbStart, hb] at h <;> omega
  | succ s ih =>
    intro b r h
    by_cases hb : isBoundary (operators[s + 1]?.getD .Other) = true
    · rcases b with _ | _ <;> simp [bbStart, hb] at h <;> omega
    · simp only [bbStart, List.getD_eq_getElem?_getD, hb, Bool.false_eq_true,
        if_false] at h
      exact le_trans (ih true r h) (by omega)

/-- C6: for every operator sequence and in-bounds probe index,
get_bb_from_operator returns none exactly when the probed instruction is
one of the ten control-flow boundary kinds, and some block otherwise. -/
theorem get_bb_from_operator_none_iff_boundary
    (operators : List Operator) (i : Nat) (h : i < operators.length) :
    get_bb_from_operator i operators = none ↔
      isBoundary (operators.getD i .Other) = true := by
  simp only [List.getD_eq_getElem?_getD]
  constructor
  · intro hnone
    by_contra hb
    rw [get_bb_from_operator] at hnone
    rcases i with _ | s
    · simp [bbStart, hb] at hnone
    · simp only [bbStart, List.getD_eq_getElem?_getD, hb, Bool.false_eq_true,
        if_false] at hnone
      rcases h' : bbStart operators s true with _ | r
      · exact bbStart_found_isSome operators s h'
      · rw [h'] at hnone
        have hr : r ≤ s := bbStart_le operators s true r h'
        have hgt : s + 1 + 1 - r > 0 := by omega
        simp only [hgt, if_true] at hnone
        exact Option.noConfusion hnone
  · intro hb
    rcases i with _ | s <;> simp [get_bb_from_operator, bbStart, hb]

/-- Witness for C6 at a concrete input: probing the End at index 1. -/
theorem get_bb_from_operator_none_iff_boundary_witness :
    (1 < ([Operator.I32Const 1, Operator.End] : List Operator).length) ∧
    (get_bb_from_operator 1 [Operator.I32Const 1, Operator.End] = none ↔
      isBoundary (([Operator.I32Const 1, Operator.End] :
        List Operator).getD 1 .Other) = true) :=
  ⟨by decide, get_bb_from_operator_none_iff_boundary
    [Operator.I32Const 1, Operator.End] 1 (by decide)⟩

/-! ## Theorems for C3: is_subtree_consistent -/

/-- Reachability through operands links, the root included. -/
inductive ReachOp (entries : List StackEntry) : Nat → Nat → Prop where
  | refl (i : Nat) : ReachOp entries i i
  | step {i o j : Nat} (ho : o ∈ (entries.getD i default).operands)
      (hr : ReachOp entries o j) : ReachOp entries i j

/-- Forest shape of a MiniDFG: every operand index of an entry is
strictly below the index of the entry itself, which is what get_dfg
produces and what makes the Rust worklist traversal terminate. -/
def OperandsDecreasing (entries : List StackEntry) : Prop :=
  ∀ i, i < entries.length →
    ∀ o ∈ (entries.getD i default).operands, o < i

instance (entries : List StackEntry) : Decidable (OperandsDecreasing entries) := by
  unfold OperandsDecreasing
  infer_instance

theorem operands_decreasing_all {entries : List StackEntry}
    (h : OperandsDecreasing entries) :
    ∀ i, ∀ o ∈ (entries.getD i default).operands, o < i := by
  intro i o ho
  by_cases hi : i < entries.length
  · exact h i hi o ho
  · rw [List.getD_eq_default _ _ (by omega)] at ho
    exact absurd ho (List.not_mem_nil o)

theorem reachOp_iff (entries : List StackEntry) (i j : Nat) :
    ReachOp entries i j ↔
      j = i ∨ ∃ o ∈ (entries.getD i default).operands, ReachOp entries o j := by
  constructor
  · intro h
    cases h with
    | refl => exact Or.inl rfl
    | step ho hr => exact Or.inr ⟨_, ho, hr⟩
  · rintro (rfl | ⟨o, ho, hr⟩)
    · exact .refl j
    · exact .step ho hr

/-- The termination measure of the worklist: operand indices strictly
decrease, so weighting index i by (maxArity+1)^i makes each loop
iteration strictly decrease the total. -/
def wlMeasure (A : Nat) (wl : List Nat) : Nat :=
  (wl.map (fun i => (A + 1) ^ i)).sum

theorem maxArity_bound (entries : List StackEntry) :
    ∀ e ∈ entries, e.operands.length ≤ maxArity entries := by
  have key : ∀ (l : List StackEntry) (a : Nat),
      a ≤ l.foldl (fun a e => max a e.operands.length) a ∧
      ∀ e ∈ l, e.operands.length ≤
        l.foldl (fun a e => max a e.operands.length) a := by
    intro l
    induction l with
    | nil => intro a; exact ⟨le_refl a, by intro e he; cases he⟩
    | cons x t ih =>
      intro a
      have h := ih (max a x.operands.length)
      refine ⟨le_trans (le_max_left _ _) h.1, ?_⟩
      intro e he
      rcases List.mem_cons.mp he with rfl | he'
      · exact le_trans (le_max_right _ _) h.1
      · exact h.2 e he'
  exact (key entries 0).2

theorem maxArity_getD (entries : List StackEntry) (i : Nat) :
    (entries.getD i default).operands.length ≤ maxArity entries := by
  by_cases hi : i < entries.length
  · exact maxArity_bound entries _ (by
      rw [List.getD_eq_getElem _ _ hi]
      exact List.getElem_mem hi)
  · rw [List.getD_eq_default _ _ (by omega)]
    exact Nat.zero_le _

/-- Popping index i and pushing its operands strictly decreases the
worklist measure: the operands weigh strictly less than the popped
entry. -/
theorem ops_measure_lt (entries : List StackEntry)
    (hWF : OperandsDecreasing entries) (i : Nat) :
    wlMeasure (maxArity entries) (entries.getD i default).operands.reverse + 1 ≤
      (maxArity entries + 1) ^ i := by
  set A := maxArity entries with hA
  set ops := (entries.getD i default).operands with hops
  have hrev : wlMeasure A ops.reverse = wlMeasure A ops := by
    unfold wlMeasure
    rw [List.map_reverse, List.sum_reverse]
  rw [hrev]
  cases i with
  | zero =>
    have : ops = [] := by
      cases h : ops with
      | nil => rfl
      | cons o t =>
        exfalso
        have := operands_decreasing_all hWF 0 o (by rw [← hops, h]; simp)
        omega
    simp [this, wlMeasure]
  | succ s =>
    have hlen : ops.length ≤ A := maxArity_getD entries (s + 1)
    have hterm : ∀ x ∈ ops.map (fun o => (A + 1) ^ o), x ≤ (A + 1) ^ s := by
      intro x hx
      rcases List.mem_map.mp hx with ⟨o, ho, rfl⟩
      have : o < s + 1 := operands_decreasing_all hWF (s + 1) o ho
      exact Nat.pow_le_pow_right (by omega) (by omega)
    have hsum : wlMeasure A ops ≤ ops.length * (A + 1) ^ s := by
      unfold wlMeasure
      calc (ops.map (fun o => (A + 1) ^ o)).sum
          ≤ (ops.map (fun o => (A + 1) ^ o)).length • ((A + 1) ^ s) :=
            List.sum_le_card_nsmul _ _ hterm
        _ = ops.length * (A + 1) ^ s := by simp [smul_eq_mul]
    have hpow : (A + 1) ^ (s + 1) = A * (A + 1) ^ s + (A + 1) ^ s := by
      ring
    have h1 : 1 ≤ (A + 1) ^ s := Nat.one_le_pow _ _ (by omega)
    have h2 : ops.length * (A + 1) ^ s ≤ A * (A + 1) ^ s :=
      Nat.mul_le_mul_right _ hlen
    omega

/-- What the worklist loop collects: a color is in the output iff it was
already collected or is the color of an entry reachable from some
worklist element. -/
theorem collectColors_mem (entries : List StackEntry)
    (hWF : OperandsDecreasing entries) :
    ∀ fuel wl acc c, wlMeasure (maxArity entries) wl ≤ fuel →
      (c ∈ collectColors entries fuel wl acc ↔
        c ∈ acc ∨ ∃ i ∈ wl, ∃ j, ReachOp entries i j ∧
          (entries.getD j default).color = c) := by
  intro fuel
  induction fuel with
  | zero =>
    intro wl acc c hm
    cases wl with
    | nil => simp [collectColors]
    | cons i rest =>
      exfalso
      have h1 : 1 ≤ (maxArity entries + 1) ^ i :=
        Nat.one_le_pow _ _ (by omega)
      have : wlMeasure (maxArity entries) (i :: rest) =
          (maxArity entries + 1) ^ i + wlMeasure (maxArity entries) rest := by
        simp [wlMeasure]
      omega
  | succ fuel ih =>
    intro wl acc c hm
    cases wl with
    | nil => simp [collectColors]
    | cons i rest =>
      have hstep : wlMeasure (maxArity entries)
          ((entries.getD i default).operands.reverse ++ rest) ≤ fuel := by
        have hsplit : wlMeasure (maxArity entries)
            ((entries.getD i default).operands.reverse ++ rest) =
            wlMeasure (maxArity entries)
              (entries.getD i default).operands.reverse +
            wlMeasure (maxArity entries) rest := by
          simp [wlMeasure]
        have hcons : wlMeasure (maxArity entries) (i :: rest) =
            (maxArity entries + 1) ^ i +
            wlMeasure (maxArity entries) rest := by
          simp [wlMeasure]
        have := ops_measure_lt entries hWF i
        omega
      rw [collectColors]
      rw [ih _ _ c hstep]
      constructor
      · rintro (hacc | ⟨i', hi', j, hr, hc⟩)
        · rcases List.mem_append.mp hacc with h | h
          · exact Or.inl h
          · have : c = (entries.getD i default).color := by simpa using h
            exact Or.inr ⟨i, by simp, i, .refl i, this.symm⟩
        · rcases List.mem_append.mp hi' with h | h
          · rw [List.mem_reverse] at h
            exact Or.inr ⟨i, by simp, j, .step h hr, hc⟩
          · exact Or.inr ⟨i', by simp [h], j, hr, hc⟩
      · rintro (hacc | ⟨i', hi', j, hr, hc⟩)
        · exact Or.inl (List.mem_append.mpr (Or.inl hacc))
        · rcases List.mem_cons.mp hi' with rfl | h
          · rcases (reachOp_iff entries i' j).mp hr with rfl | ⟨o, ho, hr'⟩
            · exact Or.inl (List.mem_append.mpr
                (Or.inr (List.mem_singleton.mpr hc.symm)))
            · exact Or.inr ⟨o, List.mem_append.mpr
                (Or.inl (List.mem_reverse.mpr ho)), j, hr', hc⟩
          · exact Or.inr ⟨i', List.mem_append.mpr (Or.inr h), j, hr, hc⟩

/-- C3: for a forest-shaped MiniDFG and an in-bounds root index,
is_subtree_consistent is true exactly when every entry reachable from the
root through operands links (the root included) has the color of the
root; and the final color check returns false on an empty traversal. -/
theorem is_subtree_consistent_iff (dfg : MiniDFG) (current : Nat)
    (hWF : OperandsDecreasing dfg.entries)
    (hc : current < dfg.entries.length) :
    (dfg.is_subtree_consistent current = true ↔
      ∀ j, ReachOp dfg.entries current j →
        (dfg.entries.getD j default).color =
          (dfg.entries.getD current default).color) ∧
    colorsConsistent [] = false := by
  refine ⟨?_, rfl⟩
  set A := maxArity dfg.entries with hA
  set F := (A + 1) ^ dfg.entries.length with hF
  have hfuel : wlMeasure A [current] ≤ F := by
    have : (A + 1) ^ current ≤ (A + 1) ^ dfg.entries.length :=
      Nat.pow_le_pow_right (by omega) (by omega)
    simpa [wlMeasure] using this
  have hmem : ∀ x, x ∈ collectColors dfg.entries F [current] [] ↔
      ∃ j, ReachOp dfg.entries current j ∧
        (dfg.entries.getD j default).color = x := by
    intro x
    rw [collectColors_mem dfg.entries hWF F [current] [] x hfuel]
    simp
  have hroot : (dfg.entries.getD current default).color ∈
      collectColors dfg.entries F [current] [] :=
    (hmem _).mpr ⟨current, .refl current, rfl⟩
  have hconsist : dfg.is_subtree_consistent current =
      colorsConsistent (collectColors dfg.entries F [current] []) := rfl
  rcases hres : collectColors dfg.entries F [current] [] with _ | ⟨c0, cs⟩
  · rw [hres] at hroot
    exact absurd hroot (List.not_mem_nil _)
  · rw [hconsist, hres]
    have hall : colorsConsistent (c0 :: cs) = true ↔
        ∀ x ∈ c0 :: cs, x = c0 := by
      simp [colorsConsistent]
    rw [hall]
    rw [hres] at hroot hmem
    constructor
    · intro h j hr
      have hj : (dfg.entries.getD j default).color ∈ c0 :: cs :=
        (hmem _).mpr ⟨j, hr, rfl⟩
      rw [h _ hj, h _ hroot]
    · intro h x hx
      rcases (hmem x).mp hx with ⟨j, hr, hcx⟩
      have hc0 : c0 ∈ c0 :: cs := by simp
      rcases (hmem c0).mp hc0 with ⟨j0, hr0, hc0x⟩
      rw [← hcx, h j hr, ← hc0x, h j0 hr0]

/-- Witness for C3 at the MiniDFG of the block
[local.get 0, local.get 0, i32.add]. -/
theorem is_subtree_consistent_iff_witness :
    OperandsDecreasing
      [⟨.LocalGet 0, [], .I32, 0, 1, 0⟩,
       ⟨.LocalGet 0, [], .I32, 1, 1, 1⟩,
       ⟨.IndexAtCode 2 2, [0, 1], .I32, 2, 1, 2⟩] ∧
    2 < ([⟨.LocalGet 0, [], .I32, 0, 1, 0⟩,
       ⟨.LocalGet 0, [], .I32, 1, 1, 1⟩,
       ⟨.IndexAtCode 2 2, [0, 1], .I32, 2, 1, 2⟩] : List StackEntry).length ∧
    ((MiniDFG.mk [(2, 2), (1, 1), (0, 0)]
      [⟨.LocalGet 0, [], .I32, 0, 1, 0⟩,
       ⟨.LocalGet 0, [], .I32, 1, 1, 1⟩,
       ⟨.IndexAtCode 2 2, [0, 1], .I32, 2, 1, 2⟩]
      [2, 2, -1]).is_subtree_consistent 2 = true ↔
      ∀ j, ReachOp (MiniDFG.mk [(2, 2), (1, 1), (0, 0)]
      [⟨.LocalGet 0, [], .I32, 0, 1, 0⟩,
       ⟨.LocalGet 0, [], .I32, 1, 1, 1⟩,
       ⟨.IndexAtCode 2 2, [0, 1], .I32, 2, 1, 2⟩]
      [2, 2, -1]).entries 2 j →
        ((MiniDFG.mk [(2, 2), (1, 1), (0, 0)]
      [⟨.LocalGet 0, [], .I32, 0, 1, 0⟩,
       ⟨.LocalGet 0, [], .I32, 1, 1, 1⟩,
       ⟨.IndexAtCode 2 2, [0, 1], .I32, 2, 1, 2⟩]
      [2, 2, -1]).entries.getD j default).color =
        ((MiniDFG.mk [(2, 2), (1, 1), (0, 0)]
      [⟨.LocalGet 0, [], .I32, 0, 1, 0⟩,
       ⟨.LocalGet 0, [], .I32, 1, 1, 1⟩,
       ⟨.IndexAtCode 2 2, [0, 1], .I32, 2, 1, 2⟩]
      [2, 2, -1]).entries.getD 2 default).color) :=
  ⟨by decide, by decide,
    (is_subtree_consistent_iff _ 2 (by decide) (by decide)).1⟩

/-! ## The get_dfg loop invariant, used for C2 and C8 -/

/-- Invariant of the symbolic evaluation state: the stack is strictly
decreasing from top to bottom (each pushed index is the then-largest),
stack elements are valid entry indices, entry colors never exceed the
running color, operand links point at valid earlier entries of color at
most the color of the consumer, and every binary-arithmetic entry
(IndexAtCode with arity 2) has two distinct operands. -/
structure DfgInv (st : DfgState) : Prop where
  desc : st.stack.Pairwise (fun a b => b < a)
  bounded : ∀ s ∈ st.stack, s < st.dfg_map.length
  colorLe : ∀ e ∈ st.dfg_map, e.color ≤ st.color
  operandsOk : ∀ e ∈ st.dfg_map, ∀ o ∈ e.operands,
    o < st.dfg_map.length ∧ (st.dfg_map.getD o default).color ≤ e.color
  binDistinct : ∀ e ∈ st.dfg_map, ∀ i,
    e.operator = .IndexAtCode i 2 → ∃ a b, e.operands = [a, b] ∧ a ≠ b

theorem dfgInv_init : DfgInv ⟨[], [], [], [], 1⟩ := by
  refine ⟨List.Pairwise.nil, ?_, ?_, ?_, ?_⟩ <;>
    intro e he <;> cases he

theorem getD_mem_colorLe {st : DfgState} (h : DfgInv st) {o : Nat}
    (ho : o < st.dfg_map.length) :
    (st.dfg_map.getD o default).color ≤ st.color := by
  apply h.colorLe
  rw [List.getD_eq_getElem _ _ ho]
  exact List.getElem_mem ho

theorem dfgInv_setParent {st : DfgState} (h : DfgInv st) (child : Nat)
    (v : Int) : DfgInv (setParent st child v) :=
  ⟨h.desc, h.bounded, h.colorLe, h.operandsOk, h.binDistinct⟩

theorem dfgInv_colorBump {st : DfgState} (h : DfgInv st) :
    DfgInv { st with color := st.color + 1 } :=
  ⟨h.desc, h.bounded, fun e he => le_trans (h.colorLe e he) (Nat.le_succ _),
    h.operandsOk, h.binDistinct⟩

theorem dfgInv_foldl_setParent (l : List Nat) (v : Int) :
    ∀ st : DfgState, DfgInv st →
      DfgInv (l.foldl (fun s i => setParent s i v) st) := by
  induction l with
  | nil => intro st h; exact h
  | cons x t ih =>
    intro st h
    exact ih _ (dfgInv_setParent h x v)

/-- Specification of pop_operand: the invariant is preserved, the popped
index is a valid entry index whose color is at most the running color,
every remaining stack element is strictly below the popped index, the
popped index is either an old stack element or the old length (the fresh
Undef), and the entry list only grows, stably below the old length. -/
theorem pop_operand_spec (operator_idx : Nat) (b : Bool) (st : DfgState)
    (h : DfgInv st) :
    ∀ i st', pop_operand operator_idx b st = (i, st') →
      DfgInv st' ∧
      i < st'.dfg_map.length ∧
      (∀ s ∈ st'.stack, s < i) ∧
      (st'.dfg_map.getD i default).color ≤ st.color ∧
      (i ∈ st.stack ∨ i = st.dfg_map.length) ∧
      st'.color = st.color ∧
      st.dfg_map.length ≤ st'.dfg_map.length ∧
      (∀ o, o < st.dfg_map.length →
        st'.dfg_map.getD o default = st.dfg_map.getD o default) ∧
      st'.stack = st.stack.tail := by
  intro i st' hp
  cases hs : st.stack with
  | cons x rest =>
    rw [pop_operand, hs] at hp
    injection hp with h1 h2
    subst h1; subst h2
    have hd := h.desc; rw [hs] at hd
    have hrest := List.pairwise_cons.mp hd
    have hbx : x < st.dfg_map.length := h.bounded x (by rw [hs]; simp)
    refine ⟨⟨hrest.2, ?_, h.colorLe, h.operandsOk, h.binDistinct⟩, hbx,
      ?_, getD_mem_colorLe h hbx, Or.inl (by simp), rfl,
      le_refl _, fun o _ => rfl, rfl⟩
    · intro s hsm
      exact h.bounded s (by rw [hs]; simp [hsm])
    · intro s hsm
      exact hrest.1 s hsm
  | nil =>
    rw [pop_operand, hs] at hp
    injection hp with h1 h2
    subst h1; subst h2
    constructor
    · refine ⟨?_, ?_, ?_, ?_, ?_⟩
      · exact List.Pairwise.nil
      · intro s hsm; exact absurd hsm (List.not_mem_nil s)
      · intro e he
        rcases List.mem_append.mp he with he' | he'
        · exact h.colorLe e he'
        · have : e = ⟨.Undef, [], .Empty, st.dfg_map.length, 0,
              operator_idx⟩ := by simpa using he'
          subst this
          exact Nat.zero_le _
      · intro e he o ho
        rcases List.mem_append.mp he with he' | he'
        · have := h.operandsOk e he' o ho
          refine ⟨by simpa using Nat.lt_succ_of_lt this.1, ?_⟩
          rw [List.getD_append _ _ _ _ this.1]
          exact this.2
        · have : e = ⟨.Undef, [], .Empty, st.dfg_map.length, 0,
              operator_idx⟩ := by simpa using he'
          subst this
          cases ho
      · intro e he i' hop
        rcases List.mem_append.mp he with he' | he'
        · exact h.binDistinct e he' i' hop
        · have : e = ⟨.Undef, [], .Empty, st.dfg_map.length, 0,
              operator_idx⟩ := by simpa using he'
          subst this
          cases hop
    · refine ⟨by simp, ?_, ?_, Or.inr rfl, rfl, by simp, ?_, rfl⟩
      · intro s hsm; exact absurd hsm (List.not_mem_nil s)
      · rw [List.getD_append_right _ _ _ _ (le_refl _)]
        simp
      · intro o ho
        rw [List.getD_append _ _ _ _ ho]

/-- Specification of push_node, given that the pushed operand list is
valid for the current state and, for a binary IndexAtCode operator, is a
distinct pair: the invariant is preserved, the returned index is the old
length, the new list extends the old one by the new entry. -/
theorem push_node_spec (operator : StackType) (operator_idx : Nat)
    (operands : List Nat) (return_type : PrimitiveTypeInfo) (st : DfgState)
    (h : DfgInv st)
    (hops : ∀ o ∈ operands, o < st.dfg_map.length ∧
      (st.dfg_map.getD o default).color ≤ st.color)
    (hbin : ∀ i, operator = .IndexAtCode i 2 →
      ∃ a b, operands = [a, b] ∧ a ≠ b) :
    ∀ r st', push_node operator operator_idx operands return_type st = (r, st') →
      DfgInv st' ∧ r = st.dfg_map.length ∧
      st'.dfg_map = st.dfg_map ++
        [⟨operator, operands, return_type, st.dfg_map.length, st.color,
          operator_idx⟩] ∧
      st'.color = st.color := by
  intro r st' hp
  rw [push_node] at hp
  injection hp with h1 h2
  subst h1; subst h2
  refine ⟨?_, rfl, rfl, rfl⟩
  have hmem : ∀ e, e ∈ st.dfg_map ++
      [⟨operator, operands, return_type, st.dfg_map.length, st.color,
        operator_idx⟩] →
      e ∈ st.dfg_map ∨
      e = ⟨operator, operands, return_type, st.dfg_map.length, st.color,
        operator_idx⟩ := by
    intro e he
    rcases List.mem_append.mp he with he' | he'
    · exact Or.inl he'
    · exact Or.inr (by simpa using he')
  have hdesc : ∀ cond : Bool, List.Pairwise (fun a b => b < a)
      (if cond = true then st.dfg_map.length :: st.stack else st.stack) := by
    intro cond
    cases cond
    · simpa using h.desc
    · simp only [if_pos rfl]
      exact List.pairwise_cons.mpr ⟨fun s hsm => h.bounded s hsm, h.desc⟩
  have hbound : ∀ cond : Bool,
      ∀ s ∈ (if cond = true then st.dfg_map.length :: st.stack
        else st.stack), s < st.dfg_map.length + 1 := by
    intro cond s hsm
    cases cond
    · simp only [Bool.false_eq_true, if_false] at hsm
      have := h.bounded s hsm
      omega
    · simp only [if_pos rfl] at hsm
      rcases List.mem_cons.mp hsm with rfl | hsm'
      · omega
      · have := h.bounded s hsm'
        omega
  constructor
  · -- stack order
    exact hdesc _
  · -- stack bounds
    intro s hsm
    have := hbound _ s hsm
    simp only [List.length_append, List.length_singleton]
    omega
  · -- colors
    intro e he
    rcases hmem e he with he' | rfl
    · exact h.colorLe e he'
    · exact le_refl _
  · -- operand links
    intro e he o ho
    rcases hmem e he with he' | rfl
    · have := h.operandsOk e he' o ho
      refine ⟨?_, ?_⟩
      · simp only [List.length_append, List.length_singleton]; omega
      · rw [List.getD_append _ _ _ _ this.1]; exact this.2
    · have := hops o ho
      refine ⟨?_, ?_⟩
      · simp only [List.length_append, List.length_singleton]; omega
      · rw [List.getD_append _ _ _ _ this.1]; exact this.2
  · -- binary distinctness
    intro e he i' hop
    rcases hmem e he with he' | rfl
    · exact h.binDistinct e he' i' hop
    · exact hbin i' hop

theorem popOperands_spec (operator_idx : Nat) :
    ∀ (n : Nat) (st : DfgState), DfgInv st →
    ∀ l st', popOperands operator_idx n st = (l, st') →
      DfgInv st' ∧
      (∀ o ∈ l, o < st'.dfg_map.length ∧
        (st'.dfg_map.getD o default).color ≤ st.color) ∧
      st'.color = st.color ∧
      st.dfg_map.length ≤ st'.dfg_map.length ∧
      (∀ o, o < st.dfg_map.length →
        st'.dfg_map.getD o default = st.dfg_map.getD o default) := by
  intro n
  induction n with
  | zero =>
    intro st h l st' hp
    rw [popOperands] at hp
    injection hp with h1 h2
    subst h1; subst h2
    exact ⟨h, fun o ho => absurd ho (List.not_mem_nil o), rfl, le_refl _,
      fun o _ => rfl⟩
  | succ n ih =>
    intro st h l st' hp
    rw [popOperands] at hp
    rcases hp1 : pop_operand operator_idx true st with ⟨i, st1⟩
    rw [hp1] at hp
    dsimp only at hp
    rcases hp2 : popOperands operator_idx n st1 with ⟨rest, st2⟩
    rw [hp2] at hp
    dsimp only at hp
    injection hp with h1 h2
    subst h1; subst h2
    obtain ⟨hi1, hl1, _, hc1, _, hcol1, hlen1, hstab1, _⟩ :=
      pop_operand_spec operator_idx true st h i st1 hp1
    obtain ⟨hi2, hl2, hcol2, hlen2, hstab2⟩ := ih st1 hi1 rest st2 hp2
    refine ⟨hi2, ?_, by omega, by omega, ?_⟩
    · intro o ho
      rcases List.mem_cons.mp ho with rfl | ho'
      · refine ⟨by omega, ?_⟩
        rw [hstab2 o hl1]
        exact hc1
      · have := hl2 o ho'
        exact ⟨this.1, by omega⟩
    · intro o ho
      rw [hstab2 o (by omega), hstab1 o ho]

theorem dfgInv_marker (st : DfgState) (h : DfgInv st) (idx : Nat) :
    DfgInv { st with
      dfg_map := st.dfg_map ++
        [⟨.IndexAtCode idx 0, [], .Empty, st.dfg_map.length, st.color, idx⟩],
      parents := st.parents ++ [(-1 : Int)] } := by
  have hmem : ∀ e, e ∈ st.dfg_map ++
      [(⟨.IndexAtCode idx 0, [], .Empty, st.dfg_map.length, st.color,
        idx⟩ : StackEntry)] →
      e ∈ st.dfg_map ∨
      e = ⟨.IndexAtCode idx 0, [], .Empty, st.dfg_map.length, st.color,
        idx⟩ := by
    intro e he
    rcases List.mem_append.mp he with he' | he'
    · exact Or.inl he'
    · exact Or.inr (by simpa using he')
  refine ⟨h.desc, ?_, ?_, ?_, ?_⟩
  · intro s hsm
    have := h.bounded s hsm
    simp only [List.length_append, List.length_singleton]
    omega
  · intro e he
    rcases hmem e he with he' | rfl
    · exact h.colorLe e he'
    · exact le_refl _
  · intro e he o ho
    rcases hmem e he with he' | rfl
    · have := h.operandsOk e he' o ho
      refine ⟨?_, ?_⟩
      · simp only [List.length_append, List.length_singleton]; omega
      · rw [List.getD_append _ _ _ _ this.1]; exact this.2
    · exact absurd ho (List.not_mem_nil o)
  · intro e he i' hop
    rcases hmem e he with he' | rfl
    · exact h.binDistinct e he' i' hop
    · exact absurd hop (by simp)

/-- The pop, push one operand, set-parent shape shared by
loads, eqz, drop, wrap, stores, local and global set and tee arms. -/
theorem dfgInv_unary (idx : Nat) (b : Bool) (operator : StackType)
    (return_type : PrimitiveTypeInfo) (v : Int) (st : DfgState)
    (h : DfgInv st)
    (hbin : ∀ i, operator ≠ .IndexAtCode i 2) :
    ∀ child st1 r st2, pop_operand idx b st = (child, st1) →
      push_node operator idx [child] return_type st1 = (r, st2) →
      DfgInv (setParent st2 child v) := by
  intro child st1 r st2 hp1 hp2
  obtain ⟨hi1, hl1, _, hc1, _, hcol1, _, _, _⟩ :=
    pop_operand_spec idx b st h child st1 hp1
  have hops : ∀ o ∈ [child], o < st1.dfg_map.length ∧
      (st1.dfg_map.getD o default).color ≤ st1.color := by
    intro o ho
    have : o = child := by simpa using ho
    subst this
    exact ⟨hl1, by omega⟩
  obtain ⟨hi2, _, _, _⟩ := push_node_spec operator idx [child] return_type
    st1 hi1 hops (fun i hop => absurd hop (hbin i)) r st2 hp2
  exact dfgInv_setParent hi2 child v

/-- The two pops of a binary arm always resolve to distinct entry
indices, and the pushed entry with both parent links set preserves the
invariant. -/
theorem dfgInv_binary (idx : Nat) (rt : PrimitiveTypeInfo) (st : DfgState)
    (h : DfgInv st) :
    ∀ leftidx st1 rightidx st2,
      pop_operand idx false st = (leftidx, st1) →
      pop_operand idx false st1 = (rightidx, st2) →
      leftidx ≠ rightidx ∧
      ∀ p st3, push_node (.IndexAtCode idx 2) idx [rightidx, leftidx] rt
          st2 = (p, st3) →
        DfgInv (setParent (setParent st3 leftidx (p : Int)) rightidx
          (p : Int)) := by
  intro leftidx st1 rightidx st2 hp1 hp2
  obtain ⟨hi1, hl1, hgt1, hc1, _, hcol1, hlen1, hstab1, _⟩ :=
    pop_operand_spec idx false st h leftidx st1 hp1
  obtain ⟨hi2, hl2, _, hc2, hmem2, hcol2, hlen2, hstab2, _⟩ :=
    pop_operand_spec idx false st1 hi1 rightidx st2 hp2
  have hne : leftidx ≠ rightidx := by
    rcases hmem2 with hm | hm
    · have := hgt1 rightidx hm
      omega
    · omega
  refine ⟨hne, ?_⟩
  intro p st3 hp3
  have hops : ∀ o ∈ [rightidx, leftidx], o < st2.dfg_map.length ∧
      (st2.dfg_map.getD o default).color ≤ st2.color := by
    intro o ho
    rcases List.mem_cons.mp ho with rfl | ho'
    · exact ⟨hl2, by omega⟩
    · have : o = leftidx := by simpa using ho'
      subst this
      rw [hstab2 o hl1]
      exact ⟨by omega, by omega⟩
  obtain ⟨hi3, _, _, _⟩ := push_node_spec (.IndexAtCode idx 2) idx
    [rightidx, leftidx] rt st2 hi2 hops
    (fun i hop => ⟨rightidx, leftidx, rfl, hne.symm⟩) p st3 hp3
  exact dfgInv_setParent (dfgInv_setParent hi3 leftidx (p : Int))
    rightidx (p : Int)

/-- One step of get_dfg never trips the assert_ne of the binary arms and
preserves the state invariant. -/
theorem dfgStep_spec (info : ModuleInfo) (locals : List PrimitiveTypeInfo)
    (idx : Nat) (op : Operator) (st : DfgState) (h : DfgInv st) :
    dfgStep info locals idx op st ≠ .error .assertNe ∧
    ∀ st', dfgStep info locals idx op st = .ok st' → DfgInv st' := by
  cases op with
  | If =>
    exact ⟨by simp [dfgStep], fun st' heq => by simp [dfgStep] at heq⟩
  | Block =>
    exact ⟨by simp [dfgStep], fun st' heq => by simp [dfgStep] at heq⟩
  | Loop =>
    exact ⟨by simp [dfgStep], fun st' heq => by simp [dfgStep] at heq⟩
  | Other =>
    exact ⟨by simp [dfgStep], fun st' heq => by simp [dfgStep] at heq⟩
  | Else =>
    refine ⟨by simp [dfgStep], ?_⟩
    intro st' heq
    simp only [dfgStep, Except.ok.injEq] at heq
    subst heq
    exact dfgInv_marker st h idx
  | End =>
    refine ⟨by simp [dfgStep], ?_⟩
    intro st' heq
    simp only [dfgStep, Except.ok.injEq] at heq
    subst heq
    exact dfgInv_marker st h idx
  | Nop =>
    refine ⟨by simp [dfgStep], ?_⟩
    intro st' heq
    simp only [dfgStep, Except.ok.injEq] at heq
    subst heq
    exact dfgInv_marker st h idx
  | Br =>
    refine ⟨by simp [dfgStep], ?_⟩
    intro st' heq
    simp only [dfgStep, Except.ok.injEq] at heq
    subst heq
    exact dfgInv_marker st h idx
  | BrTable =>
    refine ⟨by simp [dfgStep], ?_⟩
    intro st' heq
    simp only [dfgStep, Except.ok.injEq] at heq
    subst heq
    exact dfgInv_marker st h idx
  | BrIf =>
    refine ⟨by simp [dfgStep], ?_⟩
    intro st' heq
    simp only [dfgStep, Except.ok.injEq] at heq
    subst heq
    exact dfgInv_marker st h idx
  | Return =>
    refine ⟨by simp [dfgStep], ?_⟩
    intro st' heq
    simp only [dfgStep, Except.ok.injEq] at heq
    subst heq
    exact dfgInv_marker st h idx
  | Unreachable =>
    refine ⟨by simp [dfgStep], ?_⟩
    intro st' heq
    simp only [dfgStep, Except.ok.injEq] at heq
    subst heq
    exact dfgInv_marker st h idx
  | I32Const v =>
    rcases hp : push_node (.I32 v) idx [] .I32 st with ⟨r, st1⟩
    refine ⟨by simp [dfgStep, hp], ?_⟩
    intro st' heq
    simp only [dfgStep, hp, Except.ok.injEq] at heq
    subst heq
    exact (push_node_spec _ _ _ _ st h
      (fun o ho => absurd ho (List.not_mem_nil o))
      (fun i hop => StackType.noConfusion hop) r st1 hp).1
  | I64Const v =>
    rcases hp : push_node (.I64 v) idx [] .I64 st with ⟨r, st1⟩
    refine ⟨by simp [dfgStep, hp], ?_⟩
    intro st' heq
    simp only [dfgStep, hp, Except.ok.injEq] at heq
    subst heq
    exact (push_node_spec _ _ _ _ st h
      (fun o ho => absurd ho (List.not_mem_nil o))
      (fun i hop => StackType.noConfusion hop) r st1 hp).1
  | LocalGet li =>
    rcases hl : locals[li]? with _ | t
    · exact ⟨by simp [dfgStep, hl], fun st' heq => by
        simp [dfgStep, hl] at heq⟩
    · rcases hp : push_node (.LocalGet li) idx [] t st with ⟨r, st1⟩
      refine ⟨by simp [dfgStep, hl, hp], ?_⟩
      intro st' heq
      simp only [dfgStep, List.get?_eq_getElem?, hl, hp, Except.ok.injEq] at heq
      subst heq
      exact (push_node_spec _ _ _ _ st h
        (fun o ho => absurd ho (List.not_mem_nil o))
        (fun i hop => StackType.noConfusion hop) r st1 hp).1
  | GlobalGet gi =>
    rcases hl : info.global_types[gi]? with _ | t
    · exact ⟨by simp [dfgStep, hl], fun st' heq => by
        simp [dfgStep, hl] at heq⟩
    · rcases hp : push_node (.GlobalGet gi) idx [] t st with ⟨r, st1⟩
      refine ⟨by simp [dfgStep, hl, hp], ?_⟩
      intro st' heq
      simp only [dfgStep, List.get?_eq_getElem?, hl, hp, Except.ok.injEq] at heq
      subst heq
      exact (push_node_spec _ _ _ _ st h
        (fun o ho => absurd ho (List.not_mem_nil o))
        (fun i hop => StackType.noConfusion hop) r st1 hp).1
  | GlobalSet gi =>
    rcases hp1 : pop_operand idx true st with ⟨child, st1⟩
    rcases hp2 : push_node (.GlobalSet gi) idx [child] .Empty st1 with ⟨r, st2⟩
    refine ⟨by simp [dfgStep, hp1, hp2], ?_⟩
    intro st' heq
    simp only [dfgStep, hp1, hp2, Except.ok.injEq] at heq
    subst heq
    exact dfgInv_colorBump (dfgInv_unary idx true _ _ (idx : Int) st h
      (fun i => by simp) child st1 r st2 hp1 hp2)
  | LocalSet li =>
    rcases hp1 : pop_operand idx true st with ⟨child, st1⟩
    rcases hp2 : push_node (.LocalSet li) idx [child] .Empty st1 with ⟨r, st2⟩
    refine ⟨by simp [dfgStep, hp1, hp2], ?_⟩
    intro st' heq
    simp only [dfgStep, hp1, hp2, Except.ok.injEq] at heq
    subst heq
    exact dfgInv_colorBump (dfgInv_unary idx true _ _ (r : Int) st h
      (fun i => by simp) child st1 r st2 hp1 hp2)
  | LocalTee li =>
    rcases hp1 : pop_operand idx true st with ⟨child, st1⟩
    rcases hl : locals[li]? with _ | t
    · exact ⟨by simp [dfgStep, hp1, hl], fun st' heq => by
        simp [dfgStep, hp1, hl] at heq⟩
    · rcases hp2 : push_node (.LocalTee li) idx [child] t st1 with ⟨r, st2⟩
      refine ⟨by simp [dfgStep, hp1, hl, hp2], ?_⟩
      intro st' heq
      simp only [dfgStep, List.get?_eq_getElem?, hp1, hl, hp2, Except.ok.injEq] at heq
      subst heq
      exact dfgInv_colorBump (dfgInv_unary idx true _ _ (r : Int) st h
        (fun i => by simp) child st1 r st2 hp1 hp2)
  | I32Store =>
    rcases hp1 : pop_operand idx false st with ⟨offset, st1⟩
    rcases hp2 : push_node (.IndexAtCode idx 1) idx [offset] .Empty st1 with
      ⟨r, st2⟩
    refine ⟨by simp [dfgStep, hp1, hp2], ?_⟩
    intro st' heq
    simp only [dfgStep, hp1, hp2, Except.ok.injEq] at heq
    subst heq
    exact dfgInv_colorBump (dfgInv_unary idx false _ _ (r : Int) st h
      (fun i => by simp) offset st1 r st2 hp1 hp2)
  | I64Store =>
    rcases hp1 : pop_operand idx false st with ⟨offset, st1⟩
    rcases hp2 : push_node (.IndexAtCode idx 1) idx [offset] .Empty st1 with
      ⟨r, st2⟩
    refine ⟨by simp [dfgStep, hp1, hp2], ?_⟩
    intro st' heq
    simp only [dfgStep, hp1, hp2, Except.ok.injEq] at heq
    subst heq
    exact dfgInv_colorBump (dfgInv_unary idx false _ _ (r : Int) st h
      (fun i => by simp) offset st1 r st2 hp1 hp2)
  | I32Load m =>
    rcases hp1 : pop_operand idx false st with ⟨offset, st1⟩
    rcases hp2 : push_node (.Load m.offset m.align m.memory) idx [offset]
      .I32 st1 with ⟨r, st2⟩
    refine ⟨by simp [dfgStep, hp1, hp2], ?_⟩
    intro st' heq
    simp only [dfgStep, hp1, hp2, Except.ok.injEq] at heq
    subst heq
    exact dfgInv_unary idx false _ _ (r : Int) st h
      (fun i => by simp) offset st1 r st2 hp1 hp2
  | I64Load m =>
    rcases hp1 : pop_operand idx false st with ⟨offset, st1⟩
    rcases hp2 : push_node (.Load m.offset m.align m.memory) idx [offset]
      .I64 st1 with ⟨r, st2⟩
    refine ⟨by simp [dfgStep, hp1, hp2], ?_⟩
    intro st' heq
    simp only [dfgStep, hp1, hp2, Except.ok.injEq] at heq
    subst heq
    exact dfgInv_unary idx false _ _ (r : Int) st h
      (fun i => by simp) offset st1 r st2 hp1 hp2
  | I32Eqz =>
    rcases hp1 : pop_operand idx false st with ⟨operand, st1⟩
    rcases hp2 : push_node (.IndexAtCode idx 1) idx [operand] .I32 st1 with
      ⟨r, st2⟩
    refine ⟨by simp [dfgStep, hp1, hp2], ?_⟩
    intro st' heq
    simp only [dfgStep, hp1, hp2, Except.ok.injEq] at heq
    subst heq
    exact dfgInv_unary idx false _ _ (r : Int) st h
      (fun i => by simp) operand st1 r st2 hp1 hp2
  | I64Eqz =>
    rcases hp1 : pop_operand idx false st with ⟨operand, st1⟩
    rcases hp2 : push_node (.IndexAtCode idx 1) idx [operand] .I32 st1 with
      ⟨r, st2⟩
    refine ⟨by simp [dfgStep, hp1, hp2], ?_⟩
    intro st' heq
    simp only [dfgStep, hp1, hp2, Except.ok.injEq] at heq
    subst heq
    exact dfgInv_unary idx false _ _ (r : Int) st h
      (fun i => by simp) operand st1 r st2 hp1 hp2
  | Drop =>
    rcases hp1 : pop_operand idx false st with ⟨arg, st1⟩
    rcases hp2 : push_node .Drop idx [arg] .Empty st1 with ⟨r, st2⟩
    refine ⟨by simp [dfgStep, hp1, hp2], ?_⟩
    intro st' heq
    simp only [dfgStep, hp1, hp2, Except.ok.injEq] at heq
    subst heq
    exact dfgInv_unary idx false _ _ (r : Int) st h
      (fun i => by simp) arg st1 r st2 hp1 hp2
  | I32WrapI64 =>
    rcases hp1 : pop_operand idx false st with ⟨arg, st1⟩
    rcases hp2 : push_node (.IndexAtCode idx 1) idx [arg] .I32 st1 with
      ⟨r, st2⟩
    refine ⟨by simp [dfgStep, hp1, hp2], ?_⟩
    intro st' heq
    simp only [dfgStep, hp1, hp2, Except.ok.injEq] at heq
    subst heq
    exact dfgInv_unary idx false _ _ (r : Int) st h
      (fun i => by simp) arg st1 r st2 hp1 hp2
  | I64Bin b =>
    rcases hp1 : pop_operand idx false st with ⟨leftidx, st1⟩
    rcases hp2 : pop_operand idx false st1 with ⟨rightidx, st2⟩
    obtain ⟨hne, hpush⟩ :=
      dfgInv_binary idx .I64 st h leftidx st1 rightidx st2 hp1 hp2
    rcases hp3 : push_node (.IndexAtCode idx 2) idx [rightidx, leftidx]
      .I64 st2 with ⟨p, st3⟩
    refine ⟨by simp [dfgStep, hp1, hp2, hp3, hne], ?_⟩
    intro st' heq
    simp only [dfgStep, hp1, hp2, hp3, hne, if_false, Except.ok.injEq] at heq
    subst heq
    exact hpush p st3 hp3
  | I32Bin b =>
    rcases hp1 : pop_operand idx false st with ⟨leftidx, st1⟩
    rcases hp2 : pop_operand idx false st1 with ⟨rightidx, st2⟩
    obtain ⟨hne, hpush⟩ :=
      dfgInv_binary idx .I32 st h leftidx st1 rightidx st2 hp1 hp2
    rcases hp3 : push_node (.IndexAtCode idx 2) idx [rightidx, leftidx]
      .I32 st2 with ⟨p, st3⟩
    refine ⟨by simp [dfgStep, hp1, hp2, hp3, hne], ?_⟩
    intro st' heq
    simp only [dfgStep, hp1, hp2, hp3, hne, if_false, Except.ok.injEq] at heq
    subst heq
    exact hpush p st3 hp3
  | Call f =>
    rcases hf : info.funcTypes[f]? with _ | tpe
    · exact ⟨by simp [dfgStep, hf], fun st' heq => by
        simp [dfgStep, hf] at heq⟩
    · by_cases hret : tpe.returns.length > 1
      · exact ⟨by simp [dfgStep, hf, hret], fun st' heq => by
          simp [dfgStep, hf, hret] at heq⟩
      · rcases hp1 : popOperands idx tpe.params.length st with ⟨popped, st1⟩
        rcases hp2 : push_node (.Call f tpe.params.length) idx popped.reverse
          (if tpe.returns.length = 0 then .Empty
            else tpe.returns.getD 0 default) st1 with ⟨fidx, st2⟩
        obtain ⟨hi1, hops1, hcol1, hlen1, hstab1⟩ :=
          popOperands_spec idx tpe.params.length st h popped st1 hp1
        have hops : ∀ o ∈ popped.reverse, o < st1.dfg_map.length ∧
            (st1.dfg_map.getD o default).color ≤ st1.color := by
          intro o ho
          rw [List.mem_reverse] at ho
          have := hops1 o ho
          exact ⟨this.1, by omega⟩
        obtain ⟨hi2, _, _, _⟩ := push_node_spec _ _ _ _ st1 hi1 hops
          (fun i hop => StackType.noConfusion hop) fidx st2 hp2
        refine ⟨by simp [dfgStep, hf, hret, hp1, hp2], ?_⟩
        intro st' heq
        simp only [dfgStep, List.get?_eq_getElem?, hf, hret, hp1, hp2, if_false,
          Except.ok.injEq] at heq
        subst heq
        exact dfgInv_colorBump
          (dfgInv_foldl_setParent popped.reverse (fidx : Int) st2 hi2)

/-- The builder loop never exits through the assert_ne panic and yields
an invariant-satisfying state on success. -/
theorem getDfgLoop_spec (info : ModuleInfo) (operators : List Operator)
    (locals : List PrimitiveTypeInfo) :
    ∀ (n idx : Nat) (st : DfgState), DfgInv st →
      getDfgLoop info operators locals idx n st ≠ .error .assertNe ∧
      ∀ st', getDfgLoop info operators locals idx n st = .ok st' →
        DfgInv st' := by
  intro n
  induction n with
  | zero =>
    intro idx st h
    refine ⟨by simp [getDfgLoop], ?_⟩
    intro st' heq
    simp only [getDfgLoop, Except.ok.injEq] at heq
    subst heq
    exact h
  | succ n ih =>
    intro idx st h
    rcases hop : operators[idx]? with _ | op
    · exact ⟨by simp [getDfgLoop, hop], fun st' heq => by
        simp [getDfgLoop, hop] at heq⟩
    · obtain ⟨hne, hinv⟩ := dfgStep_spec info locals idx op st h
      rcases hstep : dfgStep info locals idx op st with e | st1
      · refine ⟨?_, ?_⟩
        · simp only [getDfgLoop, List.get?_eq_getElem?, hop, hstep]
          intro hcon
          injection hcon with hcon'
          subst hcon'
          exact hne hstep
        · intro st' heq
          simp [getDfgLoop, hop, hstep] at heq
      · obtain ⟨hne', hinv'⟩ := ih (idx + 1) st1 (hinv st1 hstep)
        refine ⟨?_, ?_⟩
        · simpa [getDfgLoop, List.get?_eq_getElem?, hop, hstep] using hne'
        · intro st' heq
          simp only [getDfgLoop, List.get?_eq_getElem?, hop, hstep] at heq
          exact hinv' st' heq

/-- C2: in any MiniDFG built by get_dfg, every operand of every entry is
an in-range entry index whose color is at most the color of the
consuming entry. -/
theorem get_dfg_color_monotone (info : ModuleInfo)
    (operators : List Operator) (basicblock : BBlock)
    (locals : List PrimitiveTypeInfo) (d : MiniDFG)
    (hd : get_dfg info operators basicblock locals = .ok (some d)) :
    ∀ e ∈ d.entries, ∀ o ∈ e.operands,
      o < d.entries.length ∧
      (d.entries.getD o default).color ≤ e.color := by
  rw [get_dfg] at hd
  rcases hloop : getDfgLoop info operators locals basicblock.range.start
      (basicblock.range.end_ - basicblock.range.start) ⟨[], [], [], [], 1⟩
    with e | stf
  · rw [hloop] at hd
    rcases e <;> simp at hd
  · rw [hloop] at hd
    simp only [Except.ok.injEq, Option.some.injEq] at hd
    subst hd
    have hinv := (getDfgLoop_spec info operators locals _ _ _ dfgInv_init).2
      stf hloop
    exact hinv.operandsOk

/-- Witness for C2 at the block [local.get 0, local.get 0, i32.add]. -/
theorem get_dfg_color_monotone_witness :
    (get_dfg ⟨[], []⟩ [.LocalGet 0, .LocalGet 0, .I32Bin .I32Add] ⟨⟨0, 3⟩⟩
      [.I32] = .ok (some (MiniDFG.mk [(2, 2), (1, 1), (0, 0)]
      [⟨.LocalGet 0, [], .I32, 0, 1, 0⟩,
       ⟨.LocalGet 0, [], .I32, 1, 1, 1⟩,
       ⟨.IndexAtCode 2 2, [0, 1], .I32, 2, 1, 2⟩] [2, 2, -1]))) ∧
    ∀ e ∈ (MiniDFG.mk [(2, 2), (1, 1), (0, 0)]
      [⟨.LocalGet 0, [], .I32, 0, 1, 0⟩,
       ⟨.LocalGet 0, [], .I32, 1, 1, 1⟩,
       ⟨.IndexAtCode 2 2, [0, 1], .I32, 2, 1, 2⟩] [2, 2, -1]).entries,
      ∀ o ∈ e.operands,
        o < (MiniDFG.mk [(2, 2), (1, 1), (0, 0)]
      [⟨.LocalGet 0, [], .I32, 0, 1, 0⟩,
       ⟨.LocalGet 0, [], .I32, 1, 1, 1⟩,
       ⟨.IndexAtCode 2 2, [0, 1], .I32, 2, 1, 2⟩] [2, 2, -1]).entries.length ∧
        ((MiniDFG.mk [(2, 2), (1, 1), (0, 0)]
      [⟨.LocalGet 0, [], .I32, 0, 1, 0⟩,
       ⟨.LocalGet 0, [], .I32, 1, 1, 1⟩,
       ⟨.IndexAtCode 2 2, [0, 1], .I32, 2, 1, 2⟩]
          [2, 2, -1]).entries.getD o default).color ≤ e.color :=
  ⟨rfl, get_dfg_color_monotone ⟨[], []⟩
    [.LocalGet 0, .LocalGet 0, .I32Bin .I32Add] ⟨⟨0, 3⟩⟩ [.I32] _ rfl⟩

/-- C8: get_dfg never exits through the assert_ne of the binary arms, on
any inputs and any incoming stack state, and in every built MiniDFG each
binary-arithmetic entry has exactly two distinct operand indices. -/
theorem get_dfg_assert_ne_never_fires (info : ModuleInfo)
    (operators : List Operator) (basicblock : BBlock)
    (locals : List PrimitiveTypeInfo) :
    get_dfg info operators basicblock locals ≠ .error .assertNe ∧
    ∀ d, get_dfg info operators basicblock locals = .ok (some d) →
      ∀ e ∈ d.entries, ∀ i, e.operator = .IndexAtCode i 2 →
        ∃ a b, e.operands = [a, b] ∧ a ≠ b := by
  obtain ⟨hne, hinv⟩ := getDfgLoop_spec info operators locals
    (basicblock.range.end_ - basicblock.range.start)
    basicblock.range.start ⟨[], [], [], [], 1⟩ dfgInv_init
  constructor
  · rw [get_dfg]
    rcases hloop : getDfgLoop info operators locals basicblock.range.start
        (basicblock.range.end_ - basicblock.range.start) ⟨[], [], [], [], 1⟩
      with e | stf
    · rcases e with _ | _ | _
      · simp
      · simp
      · exact absurd hloop hne
    · simp
  · intro d hd
    rw [get_dfg] at hd
    rcases hloop : getDfgLoop info operators locals basicblock.range.start
        (basicblock.range.end_ - basicblock.range.start) ⟨[], [], [], [], 1⟩
      with e | stf
    · rw [hloop] at hd
      rcases e <;> simp at hd
    · rw [hloop] at hd
      simp only [Except.ok.injEq, Option.some.injEq] at hd
      subst hd
      exact (hinv stf hloop).binDistinct

/-- Witness for C8: the no-panic part applied at the add block, and the
distinctness hypothesis discharged on its built MiniDFG. -/
theorem get_dfg_assert_ne_never_fires_witness :
    (get_dfg ⟨[], []⟩ [.LocalGet 0, .LocalGet 0, .I32Bin .I32Add] ⟨⟨0, 3⟩⟩
      [.I32] ≠ .error .assertNe) ∧
    ∀ e ∈ (MiniDFG.mk [(2, 2), (1, 1), (0, 0)]
      [⟨.LocalGet 0, [], .I32, 0, 1, 0⟩,
       ⟨.LocalGet 0, [], .I32, 1, 1, 1⟩,
       ⟨.IndexAtCode 2 2, [0, 1], .I32, 2, 1, 2⟩] [2, 2, -1]).entries,
      ∀ i, e.operator = .IndexAtCode i 2 →
        ∃ a b, e.operands = [a, b] ∧ a ≠ b :=
  ⟨(get_dfg_assert_ne_never_fires ⟨[], []⟩
      [.LocalGet 0, .LocalGet 0, .I32Bin .I32Add] ⟨⟨0, 3⟩⟩ [.I32]).1,
    (get_dfg_assert_ne_never_fires ⟨[], []⟩
      [.LocalGet 0, .LocalGet 0, .I32Bin .I32Add] ⟨⟨0, 3⟩⟩ [.I32]).2 _ rfl⟩

/-! ## Theorems for C7: multi-return calls -/

/-- Counterexample to C7 as stated: a block that contains a call to a
callee with two return values but hits an out-of-bounds local.get first
panics instead of returning None, so not every block containing a
multi-return call yields None. -/
theorem get_dfg_multireturn_call_counterexample :
    (([.LocalGet 0, .Call 0] : List Operator).getD 1 .Other = .Call 0) ∧
    ((([⟨[], [.I32, .I32]⟩] : List FunType).getD 0 default).returns.length
      > 1) ∧
    get_dfg ⟨[⟨[], [.I32, .I32]⟩], []⟩ [.LocalGet 0, .Call 0] ⟨⟨0, 2⟩⟩ [] =
      .error .indexOOB ∧
    get_dfg ⟨[⟨[], [.I32, .I32]⟩], []⟩ [.LocalGet 0, .Call 0] ⟨⟨0, 2⟩⟩ [] ≠
      .ok none :=
  ⟨rfl, by decide, rfl, fun hcon => Except.noConfusion hcon⟩

/-- Once the loop will reach a call to a callee with more than one
return value, it can never end in a successful state. -/
theorem getDfgLoop_call_no_ok (info : ModuleInfo)
    (operators : List Operator) (locals : List PrimitiveTypeInfo)
    (k f : Nat) (tpe : FunType)
    (hop : operators[k]? = some (.Call f))
    (hf : info.funcTypes[f]? = some tpe)
    (hret : tpe.returns.length > 1) :
    ∀ (n idx : Nat) (st : DfgState), idx ≤ k → k < idx + n →
      ∀ st', getDfgLoop info operators locals idx n st ≠ .ok st' := by
  intro n
  induction n with
  | zero =>
    intro idx st h1 h2 st'
    omega
  | succ n ih =>
    intro idx st h1 h2 st' hcon
    rcases hoi : operators[idx]? with _ | op
    · simp [getDfgLoop, List.get?_eq_getElem?, hoi] at hcon
    · rcases hstep : dfgStep info locals idx op st with e | st1
      · simp [getDfgLoop, List.get?_eq_getElem?, hoi, hstep] at hcon
      · by_cases hik : idx = k
        · subst hik
          rw [hoi] at hop
          injection hop with hop'
          subst hop'
          rw [dfgStep] at hstep
          rw [List.get?_eq_getElem?, hf] at hstep
          dsimp only at hstep
          rw [if_pos hret] at hstep
          exact Except.noConfusion hstep
        · have := ih (idx + 1) st1 (by omega) (by omega) st'
          apply this
          simp only [getDfgLoop, List.get?_eq_getElem?, hoi, hstep] at hcon
          exact hcon

/-- C7 amended: a basic block containing a call whose callee has more
than one return value makes get_dfg return None, provided the analysis
does not panic first (an earlier out-of-bounds local or global index
makes it panic instead, as the counterexample shows). -/
theorem get_dfg_multireturn_call_none (info : ModuleInfo)
    (operators : List Operator) (basicblock : BBlock)
    (locals : List PrimitiveTypeInfo) (k f : Nat) (tpe : FunType)
    (hk1 : basicblock.range.start ≤ k) (hk2 : k < basicblock.range.end_)
    (hop : operators[k]? = some (.Call f))
    (hf : info.funcTypes[f]? = some tpe)
    (hret : tpe.returns.length > 1)
    (hnp : ∀ p, get_dfg info operators basicblock locals ≠ .error p) :
    get_dfg info operators basicblock locals = .ok none := by
  have hno := getDfgLoop_call_no_ok info operators locals k f tpe hop hf hret
    (basicblock.range.end_ - basicblock.range.start) basicblock.range.start
    ⟨[], [], [], [], 1⟩ hk1 (by omega)
  rw [get_dfg]
  rcases hloop : getDfgLoop info operators locals basicblock.range.start
      (basicblock.range.end_ - basicblock.range.start) ⟨[], [], [], [], 1⟩
    with e | stf
  · rcases e with _ | _ | _
    · rfl
    · exact absurd (by rw [get_dfg, hloop]) (hnp .indexOOB)
    · exact absurd (by rw [get_dfg, hloop]) (hnp .assertNe)
  · exact absurd hloop (hno stf)

/-- Witness for the amended C7 at the one-instruction block [call 0]
where the callee returns two values. -/
theorem get_dfg_multireturn_call_none_witness :
    (([.Call 0] : List Operator)[0]? = some (.Call 0)) ∧
    get_dfg ⟨[⟨[], [.I32, .I32]⟩], []⟩ [.Call 0] ⟨⟨0, 1⟩⟩ [] = .ok none :=
  ⟨rfl, get_dfg_multireturn_call_none ⟨[⟨[], [.I32, .I32]⟩], []⟩ [.Call 0]
    ⟨⟨0, 1⟩⟩ [] 0 0 ⟨[], [.I32, .I32]⟩ (by decide) (by decide) rfl rfl
    (by decide) (fun p hcon => Except.noConfusion hcon)⟩

/-! ## Theorems for C5 and C9: the random extractor output -/

/-- C5: extract_random (including the cost fixpoint of
RandomExtractor::new) is a pure function of the e-graph, the seed, the
root class and the maximum depth: two calls on equal inputs produce
identical output trees. The random source is the explicitly threaded
seeded generator; no other source of nondeterminism exists in the
sampler. -/
theorem extract_random_deterministic (egraph1 egraph2 : EGraphM)
    (seed1 seed2 eclass1 eclass2 d1 d2 fc1 fc2 fe1 fe2 : Nat)
    (hg : egraph1 = egraph2) (hs : seed1 = seed2) (he : eclass1 = eclass2)
    (hd : d1 = d2) (hfc : fc1 = fc2) (hfe : fe1 = fe2) :
    extractorSample egraph1 seed1 eclass1 d1 fc1 fe1 =
      extractorSample egraph2 seed2 eclass2 d2 fc2 fe2 := by
  subst hg; subst hs; subst he; subst hd; subst hfc; subst hfe
  rfl

/-- Witness for C5 at a concrete three-class e-graph. -/
theorem extract_random_deterministic_witness :
    extractorSample [[⟨0, [1]⟩], [⟨1, [2]⟩], [⟨2, []⟩]] 7 0 4 10 10 =
      extractorSample [[⟨0, [1]⟩], [⟨1, [2]⟩], [⟨2, []⟩]] 7 0 4 10 10 :=
  extract_random_deterministic _ _ 7 7 0 0 4 4 10 10 10 10
    rfl rfl rfl rfl rfl rfl

/-- Reachability from position r to position k by following the operand
index lists of the extracted tree. -/
inductive ReachT (ops : List (List Nat)) : Nat → Nat → Prop where
  | refl (i : Nat) : ReachT ops i i
  | step {i j k : Nat} (hj : j ∈ ops.getD i []) (h : ReachT ops j k) :
      ReachT ops i k

theorem reachT_mono {ops ops' : List (List Nat)}
    (hsub : ∀ i j, j ∈ ops.getD i [] → j ∈ ops'.getD i []) :
    ∀ {r k}, ReachT ops r k → ReachT ops' r k := by
  intro r k h
  induction h with
  | refl i => exact .refl i
  | step hj _ ih => exact .step (hsub _ _ hj) ih

/-- Counterexample to C9 as stated: operand indices refer to strictly
later positions, not earlier-or-equal ones; already the root at position
0 lists operand 1. -/
theorem extract_random_operand_order_counterexample :
    extractorSample [[⟨0, [1]⟩], [⟨1, []⟩]] 7 0 5 10 10 =
      some ([⟨0, [1]⟩, ⟨1, []⟩], [[1], []]) ∧
    1 ∈ ([[1], []] : List (List Nat)).getD 0 [] ∧
    ¬(1 ≤ 0) :=
  ⟨rfl, by decide, by decide⟩

theorem reachT_trans {ops : List (List Nat)} {a b c : Nat}
    (h1 : ReachT ops a b) (h2 : ReachT ops b c) : ReachT ops a c := by
  induction h1 with
  | refl => exact h2
  | step hj _ ih => exact .step hj (ih h2)

/-- The structural invariant of the extract_random worklist loop: the
operands table is sized with id_to_node, every parent position in the
worklist is a valid position, operand indices point from earlier
positions to strictly later in-range positions, and every position is
reachable from position 0. -/
theorem extractLoop_shape (egraph : EGraphM)
    (costs : List (Option (Nat × Nat))) (max_depth : Nat) :
    ∀ (fuel rng : Nat) (wl : List WItem) (ns : List ENode)
      (ops : List (List Nat)),
      ops.length = ns.length →
      0 < ns.length →
      (∀ it ∈ wl, it.parentidx < ns.length) →
      (∀ i, ∀ j ∈ ops.getD i [], i < j ∧ j < ns.length) →
      (∀ j, j < ns.length → ReachT ops 0 j) →
      ∀ ns' ops',
        extractLoop egraph costs max_depth fuel rng wl ns ops =
          some (ns', ops') →
        ops'.length = ns'.length ∧
        0 < ns'.length ∧
        (∀ i, ∀ j ∈ ops'.getD i [], i < j ∧ j < ns'.length) ∧
        (∀ j, j < ns'.length → ReachT ops' 0 j) := by
  intro fuel
  induction fuel with
  | zero =>
    intro rng wl ns ops hlen hpos hwl hedge hreach ns' ops' hout
    cases wl with
    | nil =>
      rw [extractLoop] at hout
      injection hout with hout'
      injection hout' with h1 h2
      subst h1; subst h2
      exact ⟨hlen, hpos, hedge, hreach⟩
    | cons it rest => exact Option.noConfusion hout
  | succ fuel ih =>
    intro rng wl ns ops hlen hpos hwl hedge hreach ns' ops' hout
    cases wl with
    | nil =>
      rw [extractLoop] at hout
      injection hout with hout'
      injection hout' with h1 h2
      subst h1; subst h2
      exact ⟨hlen, hpos, hedge, hreach⟩
    | cons it rest =>
      rw [extractLoop] at hout
      dsimp only at hout
      rcases hch : (if it.depth ≥ max_depth then
          (costs.getD it.node none).map (fun c => (c.2, rng))
        else if (egraph.getD it.node []).length = 0 then none
        else some (genRange rng (egraph.getD it.node []).length)) with
        _ | p
      · rw [hch] at hout
        exact Option.noConfusion hout
      · rw [hch] at hout
        rcases p with ⟨node_idx, rng1⟩
        dsimp only at hout
        rcases hcn : (egraph.getD it.node []).get? node_idx with _ | chosen
        · rw [hcn] at hout
          exact Option.noConfusion hout
        · rw [hcn] at hout
          dsimp only at hout
          have hpi : it.parentidx < ns.length := hwl it (by simp)
          have hpi' : it.parentidx < ops.length := by omega
          have hget : ∀ i,
              ((ops ++ [[]]).set it.parentidx
                ((ops ++ [[]]).getD it.parentidx [] ++ [ns.length])).getD
                  i [] =
              if i = it.parentidx then
                ops.getD it.parentidx [] ++ [ns.length]
              else ops.getD i [] := by
            intro i
            by_cases hi : i = it.parentidx
            · subst hi
              rw [if_pos rfl]
              rw [List.getD_eq_getElem?_getD, List.getElem?_set_self
                (by simp; omega)]
              rw [List.getD_append _ _ _ _ hpi']
              simp
            · rw [if_neg hi]
              rw [List.getD_eq_getElem?_getD, List.getElem?_set_ne
                (fun hcon => hi hcon.symm)]
              by_cases hil : i < ops.length
              · rw [← List.getD_eq_getElem?_getD,
                  List.getD_append _ _ _ _ hil]
              · rw [← List.getD_eq_getElem?_getD]
                rcases Nat.lt_or_ge i (ops ++ [[]]).length with hlt | hge
                · have hieq : i = ops.length := by
                    simp only [List.length_append,
                      List.length_singleton] at hlt
                    omega
                  subst hieq
                  rw [List.getD_eq_getElem _ _ hlt]
                  rw [List.getD_eq_default _ _ (by omega)]
                  simp
                · rw [List.getD_eq_default _ _ hge,
                    List.getD_eq_default _ _ (by omega)]
          have hmono : ∀ i j, j ∈ ops.getD i [] →
              j ∈ ((ops ++ [[]]).set it.parentidx
                ((ops ++ [[]]).getD it.parentidx [] ++ [ns.length])).getD
                  i [] := by
            intro i j hj
            rw [hget]
            by_cases hi : i = it.parentidx
            · rw [if_pos hi]
              subst hi
              exact List.mem_append.mpr (Or.inl hj)
            · rw [if_neg hi]
              exact hj
          have h1 : ((ops ++ [[]]).set it.parentidx
              ((ops ++ [[]]).getD it.parentidx [] ++ [ns.length])).length =
              (ns ++ [chosen]).length := by
            simp only [List.length_set, List.length_append,
              List.length_singleton]
            omega
          have h2 : 0 < (ns ++ [chosen]).length := by
            simp only [List.length_append, List.length_singleton]
            omega
          have h3 : ∀ it' ∈ (chosen.children.map
              (fun cid => WItem.mk ns.length ns.length cid (it.depth + 1)))
                ++ rest,
              it'.parentidx < (ns ++ [chosen]).length := by
            intro it' hit'
            rcases List.mem_append.mp hit' with h' | h'
            · rcases List.mem_map.mp h' with ⟨cid, _, rfl⟩
              simp only [List.length_append, List.length_singleton]
              omega
            · have := hwl it' (by simp [h'])
              simp only [List.length_append, List.length_singleton]
              omega
          have h4 : ∀ i, ∀ j ∈ ((ops ++ [[]]).set it.parentidx
              ((ops ++ [[]]).getD it.parentidx [] ++ [ns.length])).getD
                i [],
              i < j ∧ j < (ns ++ [chosen]).length := by
            intro i j hj
            rw [hget] at hj
            by_cases hi : i = it.parentidx
            · rw [if_pos hi] at hj
              rcases List.mem_append.mp hj with hj' | hj'
              · have := hedge it.parentidx j hj'
                subst hi
                simp only [List.length_append, List.length_singleton]
                omega
              · have hje : j = ns.length := by simpa using hj'
                subst hje
                subst hi
                simp only [List.length_append, List.length_singleton]
                omega
            · rw [if_neg hi] at hj
              have := hedge i j hj
              simp only [List.length_append, List.length_singleton]
              omega
          have h5 : ∀ j, j < (ns ++ [chosen]).length →
              ReachT ((ops ++ [[]]).set it.parentidx
                ((ops ++ [[]]).getD it.parentidx [] ++ [ns.length])) 0 j := by
            intro j hj
            simp only [List.length_append, List.length_singleton] at hj
            rcases Nat.lt_or_ge j ns.length with hlt | hge
            · exact reachT_mono hmono (hreach j hlt)
            · have hje : j = ns.length := by omega
              subst hje
              have hp := reachT_mono hmono (hreach it.parentidx hpi)
              refine reachT_trans hp (ReachT.step ?_ (ReachT.refl _))
              rw [hget]
              rw [if_pos rfl]
              exact List.mem_append.mpr (Or.inr (by simp))
          exact ih rng1 _ _ _ h1 h2 h3 h4 h5 ns' ops' hout

/-- C9 amended: the tree produced by extract_random is a flat node list
plus per-node operand-index lists with the root at position 0, every
position reachable from the root, and every operand index referring to a
strictly later (not earlier-or-equal) in-range position. -/
theorem extract_random_output_shape (egraph : EGraphM)
    (costs : List (Option (Nat × Nat))) (rnd eclass max_depth fuel : Nat)
    (ns : List ENode) (ops : List (List Nat))
    (hout : extract_random egraph costs rnd eclass max_depth fuel =
      some (ns, ops)) :
    ops.length = ns.length ∧
    0 < ns.length ∧
    (∀ i, ∀ j ∈ ops.getD i [], i < j ∧ j < ns.length) ∧
    (∀ j, j < ns.length → ReachT ops 0 j) := by
  rw [extract_random] at hout
  by_cases hempty : (egraph.getD eclass []).length = 0
  · rw [if_pos hempty] at hout
    exact Option.noConfusion hout
  · rw [if_neg hempty] at hout
    dsimp only at hout
    rcases hrn : (egraph.getD eclass []).get?
        (genRange rnd (egraph.getD eclass []).length).1 with _ | rootnode
    · rw [hrn] at hout
      exact Option.noConfusion hout
    · rw [hrn] at hout
      dsimp only at hout
      refine extractLoop_shape egraph costs max_depth fuel
        (genRange rnd (egraph.getD eclass []).length).2 _ [rootnode] [[]]
        rfl (by simp) ?_ ?_ ?_ ns ops hout
      · intro it' hit'
        rcases List.mem_map.mp hit' with ⟨cid, _, rfl⟩
        simp
      · intro i j hj
        rcases Nat.lt_or_ge i 1 with hi | hi
        · interval_cases i
          simp at hj
        · rw [List.getD_eq_default _ _ (by simpa using hi)] at hj
          exact absurd hj (List.not_mem_nil j)
      · intro j hj
        simp only [List.length_singleton] at hj
        interval_cases j
        exact ReachT.refl 0

/-- Witness for the amended C9 on a concrete run. -/
theorem extract_random_output_shape_witness :
    (([[1], []] : List (List Nat)).length =
      ([⟨0, [1]⟩, ⟨1, []⟩] : List ENode).length) ∧
    (∀ i, ∀ j ∈ ([[1], []] : List (List Nat)).getD i [],
      i < j ∧ j < 2) ∧
    (∀ j, j < 2 → ReachT [[1], []] 0 j) := by
  have h := extract_random_output_shape [[⟨0, [1]⟩], [⟨1, []⟩]]
    [some (2, 0), some (1, 0)] 7 0 5 10 [⟨0, [1]⟩, ⟨1, []⟩] [[1], []] rfl
  exact ⟨h.1, h.2.2.1, h.2.2.2⟩

/-! ## Theorems for C4: the sampling depth bound -/

/-- Counterexample to C4 as stated: with max depth 0, the forced
minimal-cost node of class 1 itself has a child, so the sampled tree has
root-to-leaf distance 2 (a three-node operand chain from the root),
exceeding max depth + 1 = 1. -/
theorem extract_random_depth_counterexample :
    extractorSample [[⟨0, [1]⟩], [⟨1, [2]⟩], [⟨2, []⟩]] 7 0 0 10 10 =
      some ([⟨0, [1]⟩, ⟨1, [2]⟩, ⟨2, []⟩], [[1], [2], []]) ∧
    ([0, 1, 2] : List Nat).Chain'
      (fun a b => b ∈ ([[1], [2], []] : List (List Nat)).getD a []) ∧
    ([0, 1, 2] : List Nat).head? = some 0 ∧
    ¬(([0, 1, 2] : List Nat).length ≤ 0 + 2) :=
  ⟨rfl, by simp [List.chain'_cons], rfl, by decide⟩

/-- The single-step update of the operands table in the extract loop,
described pointwise: the parent slot gains the new position at the end,
all other slots are unchanged. -/
theorem opsSet_getD (ops : List (List Nat)) (pidx : Nat)
    (hp : pidx < ops.length) (v : Nat) :
    ∀ i, ((ops ++ [[]]).set pidx
        ((ops ++ [[]]).getD pidx [] ++ [v])).getD i [] =
      if i = pidx then ops.getD pidx [] ++ [v] else ops.getD i [] := by
  intro i
  by_cases hi : i = pidx
  · subst hi
    rw [if_pos rfl]
    rw [List.getD_eq_getElem?_getD, List.getElem?_set_self (by simp; omega)]
    rw [List.getD_append _ _ _ _ hp]
    simp
  · rw [if_neg hi]
    rw [List.getD_eq_getElem?_getD, List.getElem?_set_ne
      (fun hcon => hi hcon.symm)]
    by_cases hil : i < ops.length
    · rw [← List.getD_eq_getElem?_getD, List.getD_append _ _ _ _ hil]
    · rw [← List.getD_eq_getElem?_getD]
      rcases Nat.lt_or_ge i (ops ++ [[]]).length with hlt | hge
      · have hieq : i = ops.length := by
          simp only [List.length_append, List.length_singleton] at hlt
          omega
        subst hieq
        rw [List.getD_eq_getElem _ _ hlt]
        rw [List.getD_eq_default _ _ (by omega)]
        simp
      · rw [List.getD_eq_default _ _ hge,
          List.getD_eq_default _ _ (by omega)]

/-- Re-establishing the depth invariant after one pop of the worklist:
the appended node sits one level below its parent; if the popped item was
at the depth limit its node must be childless for the worklist condition
to stay below the limit. -/
theorem depth_inv_step (max_depth : Nat) (it : WItem) (rest : List WItem)
    (chosen : ENode) (ns : List ENode) (ops : List (List Nat))
    (dpt : List Nat)
    (hlen : dpt.length = ns.length) (hpos : 0 < ns.length)
    (hwl : ∀ it' ∈ it :: rest, it'.parentidx < ns.length ∧
      it'.depth = dpt.getD it'.parentidx 0 ∧ it'.depth ≤ max_depth)
    (hedge : ∀ i, ∀ j ∈ ops.getD i [], i < j ∧ j < ns.length ∧
      dpt.getD j 0 = dpt.getD i 0 + 1)
    (hbound : ∀ i, i < ns.length → dpt.getD i 0 ≤ max_depth + 1)
    (hzero : dpt.getD 0 0 = 0)
    (hople : ops.length = ns.length)
    (hok : chosen.children = [] ∨ it.depth < max_depth) :
    ((ops ++ [[]]).set it.parentidx
      ((ops ++ [[]]).getD it.parentidx [] ++ [ns.length])).length =
      (ns ++ [chosen]).length ∧
    (dpt ++ [it.depth + 1]).length = (ns ++ [chosen]).length ∧
    0 < (ns ++ [chosen]).length ∧
    (∀ it' ∈ (chosen.children.map (fun cid =>
        WItem.mk ns.length ns.length cid (it.depth + 1))) ++ rest,
      it'.parentidx < (ns ++ [chosen]).length ∧
      it'.depth = (dpt ++ [it.depth + 1]).getD it'.parentidx 0 ∧
      it'.depth ≤ max_depth) ∧
    (∀ i, ∀ j ∈ ((ops ++ [[]]).set it.parentidx
        ((ops ++ [[]]).getD it.parentidx [] ++ [ns.length])).getD i [],
      i < j ∧ j < (ns ++ [chosen]).length ∧
      (dpt ++ [it.depth + 1]).getD j 0 =
        (dpt ++ [it.depth + 1]).getD i 0 + 1) ∧
    (∀ i, i < (ns ++ [chosen]).length →
      (dpt ++ [it.depth + 1]).getD i 0 ≤ max_depth + 1) ∧
    (dpt ++ [it.depth + 1]).getD 0 0 = 0 := by
  obtain ⟨hpi, hdp, hdmax⟩ := hwl it (by simp)
  have hstable : ∀ i, i < ns.length →
      (dpt ++ [it.depth + 1]).getD i 0 = dpt.getD i 0 := by
    intro i hi
    rw [List.getD_append _ _ _ _ (by omega)]
  have hnew : (dpt ++ [it.depth + 1]).getD ns.length 0 = it.depth + 1 := by
    rw [List.getD_eq_getElem?_getD, List.getElem?_append_right (by omega)]
    rw [hlen]
    simp
  refine ⟨by simp [hople], by simp [hlen], by simp, ?_, ?_, ?_, ?_⟩
  · intro it' hit'
    rcases List.mem_append.mp hit' with h' | h'
    · rcases List.mem_map.mp h' with ⟨cid, hcid, rfl⟩
      have hlt : it.depth < max_depth := by
        rcases hok with hok | hok
        · rw [hok] at hcid
          exact absurd hcid (List.not_mem_nil cid)
        · exact hok
      refine ⟨by simp, ?_, by dsimp only; omega⟩
      dsimp only
      rw [hnew]
    · obtain ⟨h1, h2, h3⟩ := hwl it' (by simp [h'])
      refine ⟨by simp; omega, ?_, h3⟩
      rw [hstable _ h1]
      exact h2
  · intro i j hj
    rw [opsSet_getD ops it.parentidx (by omega) ns.length] at hj
    by_cases hi : i = it.parentidx
    · rw [if_pos hi] at hj
      subst hi
      rcases List.mem_append.mp hj with hj' | hj'
      · obtain ⟨e1, e2, e3⟩ := hedge it.parentidx j hj'
        refine ⟨e1, by simp; omega, ?_⟩
        rw [hstable _ e2, hstable _ hpi]
        exact e3
      · have hje : j = ns.length := by simpa using hj'
        subst hje
        refine ⟨by omega, by simp, ?_⟩
        rw [hnew, hstable _ hpi, ← hdp]
    · rw [if_neg hi] at hj
      obtain ⟨e1, e2, e3⟩ := hedge i j hj
      have hi' : i < ns.length := by omega
      refine ⟨e1, by simp; omega, ?_⟩
      rw [hstable _ e2, hstable _ hi']
      exact e3
  · intro i hi
    simp only [List.length_append, List.length_singleton] at hi
    rcases Nat.lt_or_ge i ns.length with hlt | hge
    · rw [hstable _ hlt]
      exact hbound i hlt
    · have hie : i = ns.length := by omega
      subst hie
      rw [hnew]
      omega
  · rw [hstable _ hpos]
    exact hzero

/-- Depth analysis of the extract loop: when every recorded minimal-cost
node is childless, a depth assignment exists for the final tree in which
the root is at 0, each operand edge descends exactly one level, and no
position is deeper than max depth + 1. -/
theorem extractLoop_depth (egraph : EGraphM)
    (costs : List (Option (Nat × Nat))) (max_depth : Nat)
    (hleaf : ∀ c p, costs.getD c none = some p →
      ∀ nd, (egraph.getD c []).get? p.2 = some nd → nd.children = []) :
    ∀ (fuel rng : Nat) (wl : List WItem) (ns : List ENode)
      (ops : List (List Nat)) (dpt : List Nat),
      dpt.length = ns.length →
      0 < ns.length →
      (∀ it ∈ wl, it.parentidx < ns.length ∧
        it.depth = dpt.getD it.parentidx 0 ∧ it.depth ≤ max_depth) →
      (∀ i, ∀ j ∈ ops.getD i [], i < j ∧ j < ns.length ∧
        dpt.getD j 0 = dpt.getD i 0 + 1) →
      (∀ i, i < ns.length → dpt.getD i 0 ≤ max_depth + 1) →
      dpt.getD 0 0 = 0 →
      ops.length = ns.length →
      ∀ ns' ops',
        extractLoop egraph costs max_depth fuel rng wl ns ops =
          some (ns', ops') →
        ∃ dpt' : List Nat,
          (∀ i, ∀ j ∈ ops'.getD i [], j < ns'.length ∧
            dpt'.getD j 0 = dpt'.getD i 0 + 1) ∧
          (∀ i, i < ns'.length → dpt'.getD i 0 ≤ max_depth + 1) ∧
          dpt'.getD 0 0 = 0 ∧ 0 < ns'.length := by
  intro fuel
  induction fuel with
  | zero =>
    intro rng wl ns ops dpt hlen hpos hwl hedge hbound hzero hople ns' ops' hout
    cases wl with
    | nil =>
      rw [extractLoop] at hout
      injection hout with hout'
      injection hout' with h1 h2
      subst h1; subst h2
      exact ⟨dpt, fun i j hj => ⟨(hedge i j hj).2.1, (hedge i j hj).2.2⟩,
        hbound, hzero, hpos⟩
    | cons it rest => exact Option.noConfusion hout
  | succ fuel ih =>
    intro rng wl ns ops dpt hlen hpos hwl hedge hbound hzero hople ns' ops' hout
    cases wl with
    | nil =>
      rw [extractLoop] at hout
      injection hout with hout'
      injection hout' with h1 h2
      subst h1; subst h2
      exact ⟨dpt, fun i j hj => ⟨(hedge i j hj).2.1, (hedge i j hj).2.2⟩,
        hbound, hzero, hpos⟩
    | cons it rest =>
      rw [extractLoop] at hout
      dsimp only at hout
      by_cases hdep : it.depth ≥ max_depth
      · rw [if_pos hdep] at hout
        rcases hcost : costs.getD it.node none with _ | p
        · rw [hcost] at hout
          exact Option.noConfusion hout
        · rw [hcost] at hout
          simp only [Option.map_some'] at hout
          rcases hcn : (egraph.getD it.node []).get? p.2 with _ | chosen
          · rw [hcn] at hout
            exact Option.noConfusion hout
          · rw [hcn] at hout
            dsimp only at hout
            have hch : chosen.children = [] := hleaf it.node p hcost chosen hcn
            obtain ⟨h0, h1, h2, h3, h4, h5, h6⟩ := depth_inv_step max_depth it
              rest chosen ns ops dpt hlen hpos hwl hedge hbound hzero hople
              (Or.inl hch)
            exact ih rng _ _ _ _ h1 h2 h3 h4 h5 h6 h0 ns' ops' hout
      · rw [if_neg hdep] at hout
        by_cases hempty : (egraph.getD it.node []).length = 0
        · rw [if_pos hempty] at hout
          exact Option.noConfusion hout
        · rw [if_neg hempty] at hout
          dsimp only at hout
          rcases hcn : (egraph.getD it.node []).get?
              (genRange rng (egraph.getD it.node []).length).1 with _ | chosen
          · rw [hcn] at hout
            exact Option.noConfusion hout
          · rw [hcn] at hout
            dsimp only at hout
            obtain ⟨h0, h1, h2, h3, h4, h5, h6⟩ := depth_inv_step max_depth it
              rest chosen ns ops dpt hlen hpos hwl hedge hbound hzero hople
              (Or.inr (by omega))
            exact ih (genRange rng (egraph.getD it.node []).length).2
              _ _ _ _ h1 h2 h3 h4 h5 h6 h0 ns' ops' hout

/-- Along an operand chain the depth assignment increases by one per
edge, so a chain starting at a valid position cannot be longer than the
depth budget allows. -/
theorem chain_len_le (ops : List (List Nat)) (dpt : List Nat)
    (n maxd : Nat)
    (hedge : ∀ i, ∀ j ∈ ops.getD i [], j < n ∧
      dpt.getD j 0 = dpt.getD i 0 + 1)
    (hbound : ∀ i, i < n → dpt.getD i 0 ≤ maxd + 1) :
    ∀ (t : List Nat) (a : Nat), a < n →
      (a :: t).Chain' (fun x y => y ∈ ops.getD x []) →
      dpt.getD a 0 + t.length ≤ maxd + 1 := by
  intro t
  induction t with
  | nil =>
    intro a ha _
    simpa using hbound a ha
  | cons b t ih =>
    intro a ha hchain
    rw [List.chain'_cons] at hchain
    obtain ⟨hab, hbt⟩ := hchain
    obtain ⟨hb, hd⟩ := hedge a b hab
    have := ih b hb hbt
    simp only [List.length_cons]
    omega

/-- C4 amended: the randomly sampled layers of extract_random are
bounded by the configured max depth and deeper nodes are the recorded
minimal-cost choices; when every recorded minimal-cost node is childless
(a true leaf layer) every root-to-leaf operand chain has at most
max depth + 2 nodes, i.e. distance at most max depth + 1. Without that
hypothesis the bound fails, as the counterexample shows. -/
theorem extract_random_depth_bound (egraph : EGraphM)
    (costs : List (Option (Nat × Nat))) (rnd eclass max_depth fuel : Nat)
    (hleaf : ∀ c p, costs.getD c none = some p →
      ∀ nd, (egraph.getD c []).get? p.2 = some nd → nd.children = [])
    (ns : List ENode) (ops : List (List Nat))
    (hout : extract_random egraph costs rnd eclass max_depth fuel =
      some (ns, ops)) :
    ∀ l : List Nat, l.Chain' (fun a b => b ∈ ops.getD a []) →
      l.head? = some 0 → l.length ≤ max_depth + 2 := by
  rw [extract_random] at hout
  by_cases hempty : (egraph.getD eclass []).length = 0
  · rw [if_pos hempty] at hout
    exact Option.noConfusion hout
  · rw [if_neg hempty] at hout
    dsimp only at hout
    rcases hrn : (egraph.getD eclass []).get?
        (genRange rnd (egraph.getD eclass []).length).1 with _ | rootnode
    · rw [hrn] at hout
      exact Option.noConfusion hout
    · rw [hrn] at hout
      dsimp only at hout
      have hinit1 : ∀ it' ∈ rootnode.children.map
          (fun cid => WItem.mk eclass 0 cid 0),
          it'.parentidx < ([rootnode] : List ENode).length ∧
          it'.depth = ([0] : List Nat).getD it'.parentidx 0 ∧
          it'.depth ≤ max_depth := by
        intro it' hit'
        rcases List.mem_map.mp hit' with ⟨cid, _, rfl⟩
        exact ⟨by simp, rfl, Nat.zero_le _⟩
      have hinit2 : ∀ i, ∀ j ∈ ([[]] : List (List Nat)).getD i [],
          i < j ∧ j < ([rootnode] : List ENode).length ∧
          ([0] : List Nat).getD j 0 = ([0] : List Nat).getD i 0 + 1 := by
        intro i j hj
        rcases Nat.lt_or_ge i 1 with hi | hi
        · interval_cases i
          simp at hj
        · rw [List.getD_eq_default _ _ (by simpa using hi)] at hj
          exact absurd hj (List.not_mem_nil j)
      have hinit3 : ∀ i, i < ([rootnode] : List ENode).length →
          ([0] : List Nat).getD i 0 ≤ max_depth + 1 := by
        intro i hi
        simp only [List.length_singleton] at hi
        interval_cases i
        simp
      obtain ⟨dpt', hedge', hbound', hzero', hpos'⟩ :=
        extractLoop_depth egraph costs max_depth hleaf fuel
          (genRange rnd (egraph.getD eclass []).length).2
          (rootnode.children.map (fun cid => WItem.mk eclass 0 cid 0))
          [rootnode] [[]] [0] rfl (by simp) hinit1 hinit2 hinit3 rfl rfl
          ns ops hout
      intro l hchain hhead
      rcases l with _ | ⟨a, t⟩
      · simp at hhead
      · have ha : a = 0 := by simpa using hhead
        subst ha
        have := chain_len_le ops dpt' ns.length max_depth hedge'
          hbound' t 0 hpos' hchain
        rw [hzero'] at this
        simp only [List.length_cons]
        omega

/-- Witness for the amended C4: a two-class e-graph whose only recorded
minimal-cost node is a leaf, sampled at max depth 0. -/
theorem extract_random_depth_bound_witness :
    (extract_random [[⟨0, [1]⟩], [⟨1, []⟩]] [none, some (1, 0)] 7 0 0 10 =
      some ([⟨0, [1]⟩, ⟨1, []⟩], [[1], []])) ∧
    ∀ l : List Nat,
      l.Chain' (fun a b => b ∈ ([[1], []] : List (List Nat)).getD a []) →
      l.head? = some 0 → l.length ≤ 0 + 2 := by
  refine ⟨rfl, ?_⟩
  have hleaf : ∀ c p,
      ([none, some (1, 0)] : List (Option (Nat × Nat))).getD c none =
        some p →
      ∀ nd, (([[⟨0, [1]⟩], [⟨1, []⟩]] : EGraphM).getD c []).get? p.2 =
        some nd → nd.children = [] := by
    intro c p hc nd hnd
    match c with
    | 0 => exact absurd hc (by simp)
    | 1 =>
      have hp : (1, 0) = p := by simpa using hc
      subst hp
      have hn : (⟨1, []⟩ : ENode) = nd := by simpa using hnd
      subst hn
      rfl
    | c + 2 =>
      rw [List.getD_eq_default _ _ (by simp)] at hc
      exact absurd hc (by simp)
  exact extract_random_depth_bound [[⟨0, [1]⟩], [⟨1, []⟩]]
    [none, some (1, 0)] 7 0 0 10 hleaf [⟨0, [1]⟩, ⟨1, []⟩] [[1], []] rfl

end Wasm
